import Mathlib

/-!
Verification of the octree search core of the lassie/qseek repository.

The octree (lassie/octree.py) is modelled as a heap of node records indexed
by allocation order, so that object identity and aliasing behaviour of the
Python code (memoized splitting, deep copies, in-place mutation) are captured
faithfully.  Coordinates, sizes and semblance values are rationals.
-/

namespace Lassie

/- Node identity: Python object identity is modelled by the allocation
index (a plain natural number) of the node record in the heap. -/

/-- Mutable state of a Python Node object (lassie/octree.py, class Node):
center coordinates, edge size, semblance, the attached children tuple and
the private memoized children tuple.  Children are stored by object id. -/
structure NodeData where
  east : ℚ
  north : ℚ
  depth : ℚ
  size : ℚ
  semblance : ℚ
  children : List Nat
  cached : List Nat
  deriving DecidableEq

/-- Heap of node objects, indexed by Nat. -/
def Heap := Nat → NodeData

/-- Program state: the node heap together with the next fresh object id. -/
structure St where
  heap : Heap
  next : Nat

/-- Write a node record at an existing id. -/
def writeNode (st : St) (i : Nat) (d : NodeData) : St :=
  { st with heap := fun j => if j = i then d else st.heap j }

/-- Allocate a fresh node object. -/
def allocNode (st : St) (d : NodeData) : St × Nat :=
  ({ heap := fun j => if j = st.next then d else st.heap j, next := st.next + 1 },
   st.next)

/-- Allocate a list of fresh node objects, in order. -/
def allocList : St → List NodeData → St × List Nat
  | st, [] => (st, [])
  | st, d :: ds =>
      let p := allocNode st d
      let q := allocList p.1 ds
      (q.1, p.2 :: q.2)

/-- Data of the eight children created by Node.split: centers at
parent ± size/4 on each axis, edge size/2, iterated east sign outermost,
then north, then depth, exactly as the Python generator expression. -/
def childData (d : NodeData) : List NodeData :=
  (([-1, 1] : List ℚ).flatMap fun e =>
    (([-1, 1] : List ℚ).flatMap fun n =>
      (([-1, 1] : List ℚ).map fun dp =>
        { east := d.east + e * (d.size / 2) / 2
          north := d.north + n * (d.size / 2) / 2
          depth := d.depth + dp * (d.size / 2) / 2
          size := d.size / 2
          semblance := 0
          children := []
          cached := [] })))

/-- Error raised by Node.split when the halved size falls below the
octree's size limit. -/
structure NodeSplitError where
  deriving DecidableEq

/-- Node.split (lassie/octree.py).  If no children are memoized, the split
fails with NodeSplitError when size/2 is below the tree's size limit and
otherwise allocates eight fresh children and memoizes them; if children are
memoized they are reattached unconditionally.  Returns the updated state and
the attached children ids. -/
def splitNode (limit : ℚ) (st : St) (i : Nat) :
    Except NodeSplitError (St × List Nat) :=
  let d := st.heap i
  if d.cached.isEmpty then
    if d.size / 2 < limit then
      .error ⟨⟩
    else
      let p := allocList st (childData d)
      .ok (writeNode p.1 i { d with children := p.2, cached := p.2 }, p.2)
  else
    .ok (writeNode st i { d with children := d.cached }, d.cached)

/-- Membership of a point in the closed axis-aligned cube of a node:
each coordinate within size/2 of the center. -/
def inCube (d : NodeData) (p : ℚ × ℚ × ℚ) : Prop :=
  |p.1 - d.east| ≤ d.size / 2 ∧
  |p.2.1 - d.north| ≤ d.size / 2 ∧
  |p.2.2 - d.depth| ≤ d.size / 2

instance (d : NodeData) (p : ℚ × ℚ × ℚ) : Decidable (inCube d p) := by
  unfold inCube; infer_instance

lemma childData_length (d : NodeData) : (childData d).length = 8 := by
  simp [childData]

/-- The child record of a node for a given sign triple. -/
def childOf (d : NodeData) (e n dp : ℚ) : NodeData :=
  { east := d.east + e * (d.size / 2) / 2
    north := d.north + n * (d.size / 2) / 2
    depth := d.depth + dp * (d.size / 2) / 2
    size := d.size / 2
    semblance := 0
    children := []
    cached := [] }

lemma mem_childData_iff (d : NodeData) (c : NodeData) :
    c ∈ childData d ↔
      ∃ e ∈ ([-1, 1] : List ℚ), ∃ n ∈ ([-1, 1] : List ℚ), ∃ dp ∈ ([-1, 1] : List ℚ),
        c = childOf d e n dp := by
  simp [childData, childOf]
  aesop

lemma childOf_mem (d : NodeData) (e n dp : ℚ)
    (he : e = -1 ∨ e = 1) (hn : n = -1 ∨ n = 1) (hdp : dp = -1 ∨ dp = 1) :
    childOf d e n dp ∈ childData d := by
  rw [mem_childData_iff]
  exact ⟨e, by rcases he with rfl | rfl <;> simp,
         n, by rcases hn with rfl | rfl <;> simp,
         dp, by rcases hdp with rfl | rfl <;> simp, rfl⟩

/-- Converse axis bound: a coordinate within (s/2)/2 of a split center is
within s/2 of the parent center. -/
lemma axis_join (c s x e : ℚ) (hs : 0 ≤ s) (he : e = -1 ∨ e = 1)
    (h : |x - (c + e * (s / 2) / 2)| ≤ s / 2 / 2) : |x - c| ≤ s / 2 := by
  rw [abs_le] at h ⊢
  rcases he with rfl | rfl <;> constructor <;> nlinarith [h.1, h.2]

/-- Axis decomposition: a coordinate lies within s/2 of the center iff it
lies within (s/2)/2 of one of the two split centers. -/
lemma axis_split (c s x : ℚ) (hs : 0 ≤ s) :
    |x - c| ≤ s / 2 ↔
      (|x - (c + (-1) * (s / 2) / 2)| ≤ s / 2 / 2 ∨
       |x - (c + 1 * (s / 2) / 2)| ≤ s / 2 / 2) := by
  rw [abs_le, abs_le, abs_le]
  constructor
  · rintro ⟨h1, h2⟩
    rcases le_total x c with hx | hx
    · left; constructor <;> nlinarith
    · right; constructor <;> nlinarith
  · rintro (⟨h1, h2⟩ | ⟨h1, h2⟩) <;> constructor <;> nlinarith

lemma inCube_childOf (d : NodeData) (e n dp : ℚ) (p : ℚ × ℚ × ℚ) :
    inCube (childOf d e n dp) p ↔
      (|p.1 - (d.east + e * (d.size / 2) / 2)| ≤ d.size / 2 / 2 ∧
       |p.2.1 - (d.north + n * (d.size / 2) / 2)| ≤ d.size / 2 / 2 ∧
       |p.2.2 - (d.depth + dp * (d.size / 2) / 2)| ≤ d.size / 2 / 2) := Iff.rfl

/-- Tiling: the union of the eight child cubes is exactly the parent cube. -/
lemma childData_tiles (d : NodeData) (hs : 0 ≤ d.size) (p : ℚ × ℚ × ℚ) :
    inCube d p ↔ ∃ c ∈ childData d, inCube c p := by
  constructor
  · rintro ⟨he, hn, hd⟩
    rw [axis_split d.east d.size p.1 hs] at he
    rw [axis_split d.north d.size p.2.1 hs] at hn
    rw [axis_split d.depth d.size p.2.2 hs] at hd
    rcases he with he | he <;> rcases hn with hn | hn <;> rcases hd with hd | hd
    · exact ⟨_, childOf_mem d (-1) (-1) (-1) (Or.inl rfl) (Or.inl rfl) (Or.inl rfl),
        (inCube_childOf _ _ _ _ _).2 ⟨he, hn, hd⟩⟩
    · exact ⟨_, childOf_mem d (-1) (-1) 1 (Or.inl rfl) (Or.inl rfl) (Or.inr rfl),
        (inCube_childOf _ _ _ _ _).2 ⟨he, hn, hd⟩⟩
    · exact ⟨_, childOf_mem d (-1) 1 (-1) (Or.inl rfl) (Or.inr rfl) (Or.inl rfl),
        (inCube_childOf _ _ _ _ _).2 ⟨he, hn, hd⟩⟩
    · exact ⟨_, childOf_mem d (-1) 1 1 (Or.inl rfl) (Or.inr rfl) (Or.inr rfl),
        (inCube_childOf _ _ _ _ _).2 ⟨he, hn, hd⟩⟩
    · exact ⟨_, childOf_mem d 1 (-1) (-1) (Or.inr rfl) (Or.inl rfl) (Or.inl rfl),
        (inCube_childOf _ _ _ _ _).2 ⟨he, hn, hd⟩⟩
    · exact ⟨_, childOf_mem d 1 (-1) 1 (Or.inr rfl) (Or.inl rfl) (Or.inr rfl),
        (inCube_childOf _ _ _ _ _).2 ⟨he, hn, hd⟩⟩
    · exact ⟨_, childOf_mem d 1 1 (-1) (Or.inr rfl) (Or.inr rfl) (Or.inl rfl),
        (inCube_childOf _ _ _ _ _).2 ⟨he, hn, hd⟩⟩
    · exact ⟨_, childOf_mem d 1 1 1 (Or.inr rfl) (Or.inr rfl) (Or.inr rfl),
        (inCube_childOf _ _ _ _ _).2 ⟨he, hn, hd⟩⟩
  · rintro ⟨c, hc, hin⟩
    rw [mem_childData_iff] at hc
    obtain ⟨e, he, n, hn, dp, hdp, rfl⟩ := hc
    rw [inCube_childOf] at hin
    obtain ⟨h1, h2, h3⟩ := hin
    have he' : e = -1 ∨ e = 1 := by simpa using he
    have hn' : n = -1 ∨ n = 1 := by simpa using hn
    have hdp' : dp = -1 ∨ dp = 1 := by simpa using hdp
    exact ⟨axis_join _ _ _ _ hs he' h1, axis_join _ _ _ _ hs hn' h2,
           axis_join _ _ _ _ hs hdp' h3⟩

lemma allocList_next (ds : List NodeData) : ∀ st : St,
    (allocList st ds).1.next = st.next + ds.length := by
  induction ds with
  | nil => intro st; simp [allocList]
  | cons d ds ih =>
      intro st
      simp only [allocList, ih, allocNode, List.length_cons]
      omega

lemma allocList_ids (ds : List NodeData) : ∀ st : St,
    (allocList st ds).2 = List.range' st.next ds.length := by
  induction ds with
  | nil => intro st; simp [allocList]
  | cons d ds ih =>
      intro st
      simp only [allocList, ih, allocNode, List.length_cons, List.range'_succ]

lemma allocList_heap_lt (ds : List NodeData) : ∀ st : St, ∀ j : Nat,
    j < st.next → (allocList st ds).1.heap j = st.heap j := by
  induction ds with
  | nil => intro st j _; rfl
  | cons d ds ih =>
      intro st j hj
      simp only [allocList]
      have h1 : j < (allocNode st d).1.next := Nat.lt_succ_of_lt hj
      rw [ih _ _ h1]
      show (if j = st.next then d else st.heap j) = st.heap j
      rw [if_neg (Nat.ne_of_lt hj)]

lemma allocList_heap_map (ds : List NodeData) : ∀ st : St,
    (allocList st ds).2.map (allocList st ds).1.heap = ds := by
  induction ds with
  | nil => intro st; simp [allocList]
  | cons d ds ih =>
      intro st
      simp only [allocList, List.map_cons, ih]
      congr 1
      rw [allocList_heap_lt ds _ _ (by simp [allocNode])]
      simp [allocNode]

/-- C1.  Node.split on a node n with no memoized children raises
NodeSplitError if and only if n.size/2 is below the size limit; on success
it attaches exactly 8 children of edge n.size/2 whose centers are
n.center ± n.size/4 independently on the east, north and depth axes, and the
eight child cubes exactly tile the parent cube. -/
theorem C1_node_split (limit : ℚ) (st : St) (i : Nat)
    (hc : (st.heap i).cached = []) (hpos : 0 < (st.heap i).size)
    (hi : i < st.next) :
    ((∃ e, splitNode limit st i = .error e) ↔ (st.heap i).size / 2 < limit) ∧
    (∀ st2 cs, splitNode limit st i = .ok (st2, cs) →
      cs.length = 8 ∧
      (st2.heap i).children = cs ∧
      (∀ c ∈ cs, ∃ e n dp : ℚ, (e = -1 ∨ e = 1) ∧ (n = -1 ∨ n = 1) ∧
        (dp = -1 ∨ dp = 1) ∧ st2.heap c = childOf (st.heap i) e n dp) ∧
      (∀ c ∈ cs, (st2.heap c).size = (st.heap i).size / 2) ∧
      (∀ p : ℚ × ℚ × ℚ, inCube (st.heap i) p ↔ ∃ c ∈ cs, inCube (st2.heap c) p)) := by
  have hce : (st.heap i).cached.isEmpty = true := by rw [hc]; rfl
  constructor
  · constructor
    · rintro ⟨e, he⟩
      by_contra hlt
      simp only [splitNode, hce, if_true, if_neg hlt] at he
      exact Except.noConfusion he
    · intro hlt
      exact ⟨⟨⟩, by simp only [splitNode, hce, if_true, if_pos hlt]⟩
  · intro st2 cs hok
    simp only [splitNode, hce, if_true] at hok
    by_cases hlt : (st.heap i).size / 2 < limit
    · simp [if_pos hlt] at hok
    · rw [if_neg hlt] at hok
      injection hok with hok
      have hst2 : st2 = writeNode (allocList st (childData (st.heap i))).1 i
          { st.heap i with
            children := (allocList st (childData (st.heap i))).2
            cached := (allocList st (childData (st.heap i))).2 } :=
        (congrArg Prod.fst hok).symm
      have hcs : cs = (allocList st (childData (st.heap i))).2 :=
        (congrArg Prod.snd hok).symm
      have hids := allocList_ids (childData (st.heap i)) st
      have hlen : cs.length = 8 := by
        rw [hcs, hids, List.length_range', childData_length]
      have hmemcs : ∀ c ∈ cs, c ≠ i := by
        intro c hcmem
        rw [hcs, hids, List.mem_range'_1] at hcmem
        omega
      have hmap : cs.map st2.heap = childData (st.heap i) := by
        rw [hcs, hst2]
        have : ∀ c ∈ (allocList st (childData (st.heap i))).2,
            (writeNode (allocList st (childData (st.heap i))).1 i
              { st.heap i with
                children := (allocList st (childData (st.heap i))).2
                cached := (allocList st (childData (st.heap i))).2 }).heap c =
            (allocList st (childData (st.heap i))).1.heap c := by
          intro c hcmem
          have : c ≠ i := by
            rw [hids, List.mem_range'_1] at hcmem; omega
          simp [writeNode, this]
        rw [List.map_congr_left this, allocList_heap_map]
      refine ⟨hlen, ?_, ?_, ?_, ?_⟩
      · rw [hst2, hcs]; simp [writeNode]
      · intro c hcmem
        have : st2.heap c ∈ childData (st.heap i) := by
          rw [← hmap]; exact List.mem_map_of_mem _ hcmem
        rw [mem_childData_iff] at this
        obtain ⟨e, he, n, hn, dp, hdp, heq⟩ := this
        exact ⟨e, n, dp, by simpa using he, by simpa using hn, by simpa using hdp, heq⟩
      · intro c hcmem
        have : st2.heap c ∈ childData (st.heap i) := by
          rw [← hmap]; exact List.mem_map_of_mem _ hcmem
        rw [mem_childData_iff] at this
        obtain ⟨e, _, n, _, dp, _, heq⟩ := this
        rw [heq]; rfl
      · intro p
        rw [childData_tiles (st.heap i) hpos.le p]
        constructor
        · rintro ⟨c, hcmem, hcin⟩
          rw [← hmap] at hcmem
          obtain ⟨c0, hc0, rfl⟩ := List.mem_map.1 hcmem
          exact ⟨c0, hc0, hcin⟩
        · rintro ⟨c, hcmem, hcin⟩
          exact ⟨st2.heap c, by rw [← hmap]; exact List.mem_map_of_mem _ hcmem, hcin⟩

/-- Concrete node record used by the closed-form witnesses. -/
def demoNode : NodeData :=
  { east := 0, north := 0, depth := 0, size := 2, semblance := 0,
    children := [], cached := [] }

/-- Concrete one-node state used by the closed-form witnesses. -/
def demoSt : St := { heap := fun _ => demoNode, next := 1 }

/-- Witness for C1 at a concrete one-node state with size 2 and limit 1/2. -/
theorem C1_node_split_witness :
    ((demoSt.heap 0).cached = [] ∧ 0 < (demoSt.heap 0).size ∧ 0 < demoSt.next) ∧
    (((∃ e, splitNode (1/2) demoSt 0 = .error e) ↔ (demoSt.heap 0).size / 2 < 1/2) ∧
     (∀ st2 cs, splitNode (1/2) demoSt 0 = .ok (st2, cs) →
      cs.length = 8 ∧
      (st2.heap 0).children = cs ∧
      (∀ c ∈ cs, ∃ e n dp : ℚ, (e = -1 ∨ e = 1) ∧ (n = -1 ∨ n = 1) ∧
        (dp = -1 ∨ dp = 1) ∧ st2.heap c = childOf (demoSt.heap 0) e n dp) ∧
      (∀ c ∈ cs, (st2.heap c).size = (demoSt.heap 0).size / 2) ∧
      (∀ p : ℚ × ℚ × ℚ, inCube (demoSt.heap 0) p ↔ ∃ c ∈ cs, inCube (st2.heap c) p))) :=
  ⟨⟨rfl, by norm_num [demoSt, demoNode], Nat.zero_lt_one⟩,
   C1_node_split (1/2) demoSt 0 rfl (by norm_num [demoSt, demoNode]) Nat.zero_lt_one⟩

/-- Per-axis root node centers of Octree._get_root_nodes: arange of
floor(extent/size) lattice indices, scaled by the root edge, shifted by half
an edge and the lower bound. -/
def rootCenters (lo hi R : ℚ) : List ℚ :=
  (List.range (⌊(hi - lo) / R⌋.toNat)).map (fun k : ℕ => (k : ℚ) * R + R / 2 + lo)

/-- Root node records of Octree._get_root_nodes: the product of the three
per-axis center lists, east outermost, then north, then depth. -/
def rootNodesData (eb nb db : ℚ × ℚ) (R : ℚ) : List NodeData :=
  (rootCenters eb.1 eb.2 R).flatMap fun e =>
    (rootCenters nb.1 nb.2 R).flatMap fun n =>
      (rootCenters db.1 db.2 R).map fun d =>
        { east := e, north := n, depth := d, size := R, semblance := 0,
          children := [], cached := [] }

lemma length_flatMap_const {α β : Type} (l : List α) (f : α → List β) (c : ℕ)
    (h : ∀ a, (f a).length = c) : (l.flatMap f).length = l.length * c := by
  induction l with
  | nil => simp
  | cons a l ih => simp only [List.flatMap_cons, List.length_append, ih, h,
      List.length_cons]; ring

lemma rootCenters_length (lo hi R : ℚ) :
    (rootCenters lo hi R).length = ⌊(hi - lo) / R⌋.toNat := by
  rw [rootCenters, List.length_map, List.length_range]

lemma rootNodesData_length (eb nb db : ℚ × ℚ) (R : ℚ) :
    (rootNodesData eb nb db R).length =
      (rootCenters eb.1 eb.2 R).length *
        ((rootCenters nb.1 nb.2 R).length * (rootCenters db.1 db.2 R).length) := by
  rw [rootNodesData,
    length_flatMap_const _ _ ((rootCenters nb.1 nb.2 R).length *
      (rootCenters db.1 db.2 R).length)]
  intro a
  rw [length_flatMap_const _ _ (rootCenters db.1 db.2 R).length]
  intro b
  rw [List.length_map]

lemma mem_rootNodesData_iff (eb nb db : ℚ × ℚ) (R : ℚ) (d : NodeData) :
    d ∈ rootNodesData eb nb db R ↔
      d.east ∈ rootCenters eb.1 eb.2 R ∧ d.north ∈ rootCenters nb.1 nb.2 R ∧
      d.depth ∈ rootCenters db.1 db.2 R ∧ d.size = R ∧ d.semblance = 0 ∧
      d.children = [] ∧ d.cached = [] := by
  simp only [rootNodesData, List.mem_flatMap, List.mem_map]
  constructor
  · rintro ⟨e, he, n, hn, dp, hdp, rfl⟩
    exact ⟨he, hn, hdp, rfl, rfl, rfl, rfl⟩
  · rintro ⟨he, hn, hdp, hsz, hsem, hch, hca⟩
    refine ⟨d.east, he, d.north, hn, d.depth, hdp, ?_⟩
    cases d
    simp only [] at hsz hsem hch hca
    simp [hsz, hsem, hch, hca]

/-- C8.  Octree construction lays out root nodes whose per-axis centers are
exactly bounds.min + R·(k + 1/2) for k = 0 … floor(extent/R) − 1, and the
number of root nodes is the product of the three per-axis counts. -/
theorem C8_root_layout (eb nb db : ℚ × ℚ) (R : ℚ) :
    ((rootCenters eb.1 eb.2 R).length = ⌊(eb.2 - eb.1) / R⌋.toNat) ∧
    (∀ k : ℕ, ∀ hk : k < (rootCenters eb.1 eb.2 R).length,
       (rootCenters eb.1 eb.2 R).get ⟨k, hk⟩ = eb.1 + R * ((k : ℚ) + 1/2)) ∧
    ((rootNodesData eb nb db R).length =
       ⌊(eb.2 - eb.1) / R⌋.toNat *
         (⌊(nb.2 - nb.1) / R⌋.toNat * ⌊(db.2 - db.1) / R⌋.toNat)) ∧
    (∀ d ∈ rootNodesData eb nb db R,
       d.east ∈ rootCenters eb.1 eb.2 R ∧ d.north ∈ rootCenters nb.1 nb.2 R ∧
       d.depth ∈ rootCenters db.1 db.2 R ∧ d.size = R) := by
  refine ⟨rootCenters_length _ _ _, ?_, ?_, ?_⟩
  · intro k hk
    simp only [rootCenters, List.get_eq_getElem, List.getElem_map, List.getElem_range]
    ring
  · rw [rootNodesData_length, rootCenters_length, rootCenters_length,
      rootCenters_length]
  · intro d hd
    obtain ⟨h1, h2, h3, h4, _⟩ := (mem_rootNodesData_iff eb nb db R d).1 hd
    exact ⟨h1, h2, h3, h4⟩

/-- Witness for C8 at concrete bounds (0,5) × (0,5) × (0,3) and root edge 2. -/
theorem C8_root_layout_witness :
    ((0:ℕ) < (rootCenters 0 5 2).length) ∧
    (rootCenters 0 5 2).length = 2 ∧
    (rootNodesData (0,5) (0,5) (0,3) 2).length = 2 * (2 * 1) := by
  have h := C8_root_layout (0,5) (0,5) (0,3) 2
  refine ⟨?_, ?_, ?_⟩
  · rw [h.1]
    norm_num
  · rw [h.1]
    norm_num
    decide
  · rw [h.2.2.1]
    norm_num
    decide

/-- Static configuration of an Octree (lassie/octree.py, class Octree). -/
structure OctreeParams where
  sizeInitial : ℚ
  sizeLimit : ℚ
  eastBounds : ℚ × ℚ
  northBounds : ℚ × ℚ
  depthBounds : ℚ × ℚ

/-- Octree.reset: regenerate the root nodes from the stored bounds and the
initial size, allocating fresh node objects; returns the new root id list. -/
def octreeReset (st : St) (pr : OctreeParams) : St × List Nat :=
  allocList st (rootNodesData pr.eastBounds pr.northBounds pr.depthBounds pr.sizeInitial)

/-- Stable hash key of a node (Node.__hash__): the tree's geographic center
together with the node's center coordinates and size. -/
def hashKey (clat clon : ℚ) (d : NodeData) : ℚ × ℚ × ℚ × ℚ × ℚ × ℚ :=
  (clat, clon, d.east, d.north, d.depth, d.size)

/-- C6.  Splitting a node, resetting the octree, and splitting the node again
reattaches children that are object-identical to the first split's children
(per-node memoization; the reset does not touch the node object), and the
reset tree's root nodes carry the same hash keys as the lattice layout, so
hashes used as cache keys are stable across reset. -/
theorem C6_split_reset_split (limit clat clon : ℚ) (pr : OctreeParams) (st0 : St)
    (n : Nat) (hn : n < st0.next)
    (hwf : ∀ c ∈ (st0.heap n).cached, c < st0.next ∧ c ≠ n) :
    ∀ st1 cs, splitNode limit st0 n = .ok (st1, cs) →
      ∃ st3, splitNode limit (octreeReset st1 pr).1 n = .ok (st3, cs) ∧
        (∀ c ∈ cs, st3.heap c = st1.heap c) ∧
        ((octreeReset st1 pr).2.map
            (fun j => hashKey clat clon ((octreeReset st1 pr).1.heap j)) =
          (rootNodesData pr.eastBounds pr.northBounds pr.depthBounds
            pr.sizeInitial).map (hashKey clat clon)) := by
  intro st1 cs hok
  -- facts about the first split, by cases on the memoization state
  have key : (st1.heap n).cached = cs ∧ cs ≠ [] ∧ st0.next ≤ st1.next ∧
      (∀ c ∈ cs, c < st1.next ∧ c ≠ n) := by
    by_cases hce : (st0.heap n).cached.isEmpty = true
    · by_cases hlt : (st0.heap n).size / 2 < limit
      · simp only [splitNode, hce, if_true, if_pos hlt] at hok
        exact Except.noConfusion hok
      · simp only [splitNode, hce, if_true, if_neg hlt] at hok
        injection hok with hok
        have hst1 : st1 = writeNode (allocList st0 (childData (st0.heap n))).1 n
            { st0.heap n with
              children := (allocList st0 (childData (st0.heap n))).2
              cached := (allocList st0 (childData (st0.heap n))).2 } :=
          (congrArg Prod.fst hok).symm
        have hcs : cs = (allocList st0 (childData (st0.heap n))).2 :=
          (congrArg Prod.snd hok).symm
        have hids := allocList_ids (childData (st0.heap n)) st0
        have hnext : st1.next = st0.next + 8 := by
          rw [hst1]
          show (allocList st0 (childData (st0.heap n))).1.next = st0.next + 8
          rw [allocList_next, childData_length]
        refine ⟨?_, ?_, ?_, ?_⟩
        · rw [hst1, hcs]; simp [writeNode]
        · rw [hcs, hids, childData_length]
          simp [List.range'_eq_nil]
        · omega
        · intro c hc
          rw [hcs, hids, childData_length, List.mem_range'_1] at hc
          omega
    · simp only [splitNode, hce, if_false] at hok
      injection hok with hok
      have hst1 : st1 = writeNode st0 n
          { st0.heap n with children := (st0.heap n).cached } :=
        (congrArg Prod.fst hok).symm
      have hcs : cs = (st0.heap n).cached := (congrArg Prod.snd hok).symm
      have hnext : st1.next = st0.next := by rw [hst1]; rfl
      refine ⟨?_, ?_, ?_, ?_⟩
      · rw [hst1, hcs]; simp [writeNode]
      · rw [hcs]; intro hnil; rw [hnil] at hce; exact hce rfl
      · omega
      · intro c hc
        rw [hcs] at hc
        obtain ⟨h1, h2⟩ := hwf c hc
        omega
  obtain ⟨hcached, hcsne, hle, hmem⟩ := key
  -- the reset allocates only fresh ids, so node n is untouched
  have hheapn : (octreeReset st1 pr).1.heap n = st1.heap n := by
    rw [octreeReset]
    exact allocList_heap_lt _ _ _ (lt_of_lt_of_le hn hle)
  have hce2 : ((octreeReset st1 pr).1.heap n).cached.isEmpty = false := by
    rw [hheapn, hcached]
    cases cs with
    | nil => exact absurd rfl hcsne
    | cons a t => rfl
  have hc3 : ((octreeReset st1 pr).1.heap n).cached = cs := by rw [hheapn, hcached]
  refine ⟨writeNode (octreeReset st1 pr).1 n
      { (octreeReset st1 pr).1.heap n with
        children := ((octreeReset st1 pr).1.heap n).cached }, ?_, ?_, ?_⟩
  · simp only [splitNode, hce2, Bool.false_eq_true, if_false]
    rw [hc3]
  · intro c hc
    obtain ⟨hclt, hcn⟩ := hmem c hc
    show (writeNode (octreeReset st1 pr).1 n _).heap c = st1.heap c
    simp only [writeNode, if_neg hcn]
    rw [octreeReset]
    exact allocList_heap_lt _ _ _ hclt
  · have hmapeq := allocList_heap_map
      (rootNodesData pr.eastBounds pr.northBounds pr.depthBounds pr.sizeInitial) st1
    calc (octreeReset st1 pr).2.map
          (fun j => hashKey clat clon ((octreeReset st1 pr).1.heap j))
        = ((octreeReset st1 pr).2.map (octreeReset st1 pr).1.heap).map
            (hashKey clat clon) := by rw [List.map_map]; rfl
      _ = (rootNodesData pr.eastBounds pr.northBounds pr.depthBounds
            pr.sizeInitial).map (hashKey clat clon) := by
          rw [octreeReset] at *; rw [hmapeq]

/-- Witness for C6: one-node state of size 2 with limit 1/2, trivial bounds. -/
theorem C6_split_reset_split_witness :
    (0 < demoSt.next ∧ ∀ c ∈ (demoSt.heap 0).cached, c < demoSt.next ∧ c ≠ 0) ∧
    (∀ st1 cs, splitNode (1/2) demoSt 0 = .ok (st1, cs) →
      ∃ st3, splitNode (1/2)
          (octreeReset st1 ⟨2, 1/2, (0,2), (0,2), (0,2)⟩).1 0 = .ok (st3, cs) ∧
        (∀ c ∈ cs, st3.heap c = st1.heap c) ∧
        ((octreeReset st1 ⟨2, 1/2, (0,2), (0,2), (0,2)⟩).2.map
            (fun j => hashKey 0 0
              ((octreeReset st1 ⟨2, 1/2, (0,2), (0,2), (0,2)⟩).1.heap j)) =
          (rootNodesData (0,2) (0,2) (0,2) 2).map (hashKey 0 0))) :=
  ⟨⟨Nat.zero_lt_one, by intro c hc; exact absurd hc (by simp [demoSt, demoNode])⟩,
   C6_split_reset_split (1/2) 0 0 ⟨2, 1/2, (0,2), (0,2), (0,2)⟩ demoSt 0
     Nat.zero_lt_one
     (by intro c hc; exact absurd hc (by simp [demoSt, demoNode]))⟩

/-- Leaf iteration of a node (Node.__iter__): a node with children yields
the leaves of its children in order, a childless node yields itself.
Recursion is bounded by an explicit depth fuel. -/
def leavesAux (h : Heap) : ℕ → Nat → List Nat
  | 0, _ => []
  | fuel + 1, i =>
      if (h i).children.isEmpty then [i]
      else (h i).children.flatMap (leavesAux h fuel)

/-- Leaf iteration of the octree (Octree.__iter__): leaves of every root
node, in root order. -/
def leavesList (h : Heap) (fuel : ℕ) (roots : List Nat) : List Nat :=
  roots.flatMap (leavesAux h fuel)

/-- Write a list of semblance values into a list of node ids, pairwise. -/
def writeFold (st : St) (ps : List (Nat × ℚ)) : St :=
  ps.foldl (fun s p => writeNode s p.1 { s.heap p.1 with semblance := p.2 }) st

/-- Octree.map_semblance: write the vector into the leaves pairwise (the
Python zip stops at the shorter operand), then flag an error iff the number
of written nodes differs from the vector length. -/
def mapSemblance (st : St) (lvs : List Nat) (v : List ℚ) : St × Bool :=
  (writeFold st (lvs.zip v), decide (min lvs.length v.length ≠ v.length))

lemma writeFold_cons (st : St) (a : Nat × ℚ) (ps : List (Nat × ℚ)) :
    writeFold st (a :: ps) =
      writeFold (writeNode st a.1 { st.heap a.1 with semblance := a.2 }) ps := rfl

lemma writeFold_not_mem (ps : List (Nat × ℚ)) : ∀ st : St, ∀ j : Nat,
    j ∉ ps.map Prod.fst → (writeFold st ps).heap j = st.heap j := by
  induction ps with
  | nil => intro st j _; rfl
  | cons p ps ih =>
      intro st j hj
      simp only [List.map_cons, List.mem_cons, not_or] at hj
      rw [writeFold_cons, ih _ _ hj.2]
      simp [writeNode, hj.1]

lemma writeFold_mem (ps : List (Nat × ℚ)) : ∀ st : St,
    (ps.map Prod.fst).Nodup → ∀ p ∈ ps,
      (writeFold st ps).heap p.1 = { st.heap p.1 with semblance := p.2 } := by
  induction ps with
  | nil => intro st _ p hp; exact absurd hp (List.not_mem_nil p)
  | cons a ps ih =>
      intro st hnd p hp
      simp only [List.map_cons, List.nodup_cons] at hnd
      rcases List.mem_cons.1 hp with rfl | hp2
      · rw [writeFold_cons, writeFold_not_mem _ _ _ hnd.1]
        simp [writeNode]
      · rw [writeFold_cons, ih _ hnd.2 _ hp2]
        have hne : p.1 ≠ a.1 := by
          intro h
          exact hnd.1 (h ▸ List.mem_map_of_mem Prod.fst hp2)
        simp [writeNode, hne]

lemma writeFold_shape (ps : List (Nat × ℚ)) : ∀ st : St, ∀ j : Nat,
    (writeFold st ps).heap j = st.heap j ∨
      ∃ q, (writeFold st ps).heap j = { st.heap j with semblance := q } := by
  induction ps with
  | nil => intro st j; exact Or.inl rfl
  | cons a ps ih =>
      intro st j
      rw [writeFold_cons]
      rcases ih (writeNode st a.1 { st.heap a.1 with semblance := a.2 }) j with h | ⟨q, h⟩ <;>
        by_cases hj : j = a.1
      · subst hj
        right
        refine ⟨a.2, ?_⟩
        rw [h]
        simp [writeNode]
      · left
        rw [h]
        simp [writeNode, hj]
      · subst hj
        right
        refine ⟨q, ?_⟩
        rw [h]
        simp [writeNode]
      · right
        refine ⟨q, ?_⟩
        rw [h]
        simp [writeNode, hj]

lemma map_fst_zip_eq_take {α β : Type} (l1 : List α) :
    ∀ l2 : List β, (l1.zip l2).map Prod.fst = l1.take l2.length := by
  induction l1 with
  | nil => intro l2; simp
  | cons a l1 ih =>
      intro l2
      cases l2 with
      | nil => simp
      | cons b l2 => simp [List.zip_cons_cons, ih]

/-- C7 (amended).  Octree.map_semblance raises an error iff the vector is
longer than the leaf count; it writes vector[k] into leaf k (in iteration
order) for every k below both lengths, changes no field other than
semblance anywhere, and leaves nodes outside the leaf list untouched.  In
particular a vector shorter than the leaf count is accepted silently. -/
theorem C7_map_semblance (st : St) (fuel : ℕ) (roots : List Nat) (v : List ℚ)
    (hnd : (leavesList st.heap fuel roots).Nodup) :
    ((mapSemblance st (leavesList st.heap fuel roots) v).2 = true ↔
       (leavesList st.heap fuel roots).length < v.length) ∧
    (∀ k : ℕ, ∀ hk : k < (leavesList st.heap fuel roots).length, ∀ hkv : k < v.length,
       ((mapSemblance st (leavesList st.heap fuel roots) v).1.heap
           ((leavesList st.heap fuel roots).get ⟨k, hk⟩)).semblance =
         v.get ⟨k, hkv⟩) ∧
    (∀ j : Nat,
       ((mapSemblance st (leavesList st.heap fuel roots) v).1.heap j).east = (st.heap j).east ∧
       ((mapSemblance st (leavesList st.heap fuel roots) v).1.heap j).north = (st.heap j).north ∧
       ((mapSemblance st (leavesList st.heap fuel roots) v).1.heap j).depth = (st.heap j).depth ∧
       ((mapSemblance st (leavesList st.heap fuel roots) v).1.heap j).size = (st.heap j).size ∧
       ((mapSemblance st (leavesList st.heap fuel roots) v).1.heap j).children = (st.heap j).children ∧
       ((mapSemblance st (leavesList st.heap fuel roots) v).1.heap j).cached = (st.heap j).cached) ∧
    (∀ j : Nat, j ∉ leavesList st.heap fuel roots →
       (mapSemblance st (leavesList st.heap fuel roots) v).1.heap j = st.heap j) := by
  set lvs := leavesList st.heap fuel roots with hlvs
  have hfst : (lvs.zip v).map Prod.fst = lvs.take v.length := map_fst_zip_eq_take lvs v
  refine ⟨?_, ?_, ?_, ?_⟩
  · simp only [mapSemblance, decide_eq_true_eq]
    omega
  · intro k hk hkv
    have hmem : (lvs.get ⟨k, hk⟩, v.get ⟨k, hkv⟩) ∈ lvs.zip v := by
      have hzl : k < (lvs.zip v).length := by
        rw [List.length_zip]
        omega
      have : (lvs.zip v).get ⟨k, hzl⟩ = (lvs.get ⟨k, hk⟩, v.get ⟨k, hkv⟩) := by
        simp [List.get_eq_getElem, List.getElem_zip]
      rw [← this]
      exact List.get_mem _ k hzl
    have hndz : ((lvs.zip v).map Prod.fst).Nodup := by
      rw [hfst]
      exact hnd.sublist (List.take_sublist _ _)
    have := writeFold_mem (lvs.zip v) st hndz _ hmem
    simp only [mapSemblance]
    rw [this]
  · intro j
    rcases writeFold_shape (lvs.zip v) st j with h | ⟨q, h⟩ <;>
      simp only [mapSemblance] <;> rw [h] <;> exact ⟨rfl, rfl, rfl, rfl, rfl, rfl⟩
  · intro j hj
    have : j ∉ (lvs.zip v).map Prod.fst := by
      rw [hfst]
      intro hmem
      exact hj (List.mem_of_mem_take hmem)
    simp only [mapSemblance]
    exact writeFold_not_mem _ _ _ this

/-- Concrete two-leaf state used by the C7 counterexample. -/
def demoSt2 : St := { heap := fun _ => demoNode, next := 2 }

/-- Counterexample to C7 as stated: with two leaves and a vector of length
one the lengths differ, yet map_semblance reports no error (the Python zip
silently stops at the shorter operand, so the length check only catches
vectors longer than the leaf count). -/
theorem C7_counterexample :
    (leavesList demoSt2.heap 1 [0, 1]).length ≠ ([(5 : ℚ)]).length ∧
    (mapSemblance demoSt2 (leavesList demoSt2.heap 1 [0, 1]) [(5 : ℚ)]).2 = false := by
  constructor
  · decide
  · decide

/-- Witness for C7 at the concrete two-leaf state with a matching vector. -/
theorem C7_map_semblance_witness :
    (leavesList demoSt2.heap 1 [0, 1]).Nodup ∧
    (((mapSemblance demoSt2 (leavesList demoSt2.heap 1 [0, 1]) [4, 7]).2 = true ↔
        (leavesList demoSt2.heap 1 [0, 1]).length < ([(4 : ℚ), 7]).length) ∧
     (∀ k : ℕ, ∀ hk : k < (leavesList demoSt2.heap 1 [0, 1]).length,
        ∀ hkv : k < ([(4 : ℚ), 7]).length,
        ((mapSemblance demoSt2 (leavesList demoSt2.heap 1 [0, 1]) [4, 7]).1.heap
            ((leavesList demoSt2.heap 1 [0, 1]).get ⟨k, hk⟩)).semblance =
          ([(4 : ℚ), 7]).get ⟨k, hkv⟩)) :=
  ⟨by decide,
   ⟨(C7_map_semblance demoSt2 1 [0, 1] [4, 7] (by decide)).1,
    (C7_map_semblance demoSt2 1 [0, 1] [4, 7] (by decide)).2.1⟩⟩

/-- Characterization of List.min? over the rationals. -/
lemma min?_spec (l : List ℚ) (a : ℚ) : l.min? = some a ↔ a ∈ l ∧ ∀ b ∈ l, a ≤ b := by
  have inst : Std.Antisymm (α := ℚ) (· ≤ ·) := ⟨fun h1 h2 => le_antisymm h1 h2⟩
  rw [List.min?_eq_some_iff]
  all_goals simp [le_total, min_le_left, min_le_right, le_min_iff]

/-- Characterization of List.max? over the rationals. -/
lemma max?_spec (l : List ℚ) (a : ℚ) : l.max? = some a ↔ a ∈ l ∧ ∀ b ∈ l, b ≤ a := by
  have inst : Std.Antisymm (α := ℚ) (· ≤ ·) := ⟨fun h1 h2 => le_antisymm h1 h2⟩
  rw [List.max?_eq_some_iff]
  all_goals simp [le_total, le_max_iff]

lemma min?_of_ne_nil (l : List ℚ) (h : l ≠ []) : ∃ a, l.min? = some a := by
  cases l with
  | nil => exact absurd rfl h
  | cons x xs => exact ⟨_, List.min?_cons⟩

lemma max?_of_ne_nil (l : List ℚ) (h : l ≠ []) : ∃ a, l.max? = some a := by
  cases l with
  | nil => exact absurd rfl h
  | cons x xs => exact ⟨_, List.max?_cons⟩

/-- numpy nanmin over a vector with NaNs modelled as none: the minimum of
the finite entries, or none when there is no finite entry. -/
def nanmin (ts : List (Option ℚ)) : Option ℚ := (ts.filterMap id).min?

/-- numpy nanmax over a vector with NaNs modelled as none. -/
def nanmax (ts : List (Option ℚ)) : Option ℚ := (ts.filterMap id).max?

/-- Per-phase travel time ranges of Search.init_boundaries: for each phase,
the pair (nanmin, nanmax) of its travel times over the coarse octree. -/
def phaseRanges : List (List (Option ℚ)) → Option (List (ℚ × ℚ))
  | [] => some []
  | ts :: rest =>
    match nanmin ts, nanmax ts, phaseRanges rest with
    | some mn, some mx, some rs => some ((mn, mx) :: rs)
    | _, _, _ => none

/-- Search.init_boundaries: the overall shift range is the difference of the
max and min over the chained per-phase range endpoints, the window padding
is shift range + detection blinding + image blinding, and the error flag is
set iff window_length < 2·padding + shift range. -/
def initBoundaries (phases : List (List (Option ℚ))) (db ib wl : ℚ) :
    Option (ℚ × ℚ × Bool) :=
  match phaseRanges phases with
  | none => none
  | some rs =>
    let endpoints := rs.flatMap (fun r => [r.1, r.2])
    match endpoints.min?, endpoints.max? with
    | some mn, some mx =>
        some (mx - mn, mx - mn + db + ib,
          decide (wl < 2 * (mx - mn + db + ib) + (mx - mn)))
    | _, _ => none

/-- Relation between a phase's travel times and its computed range pair. -/
def rangeOf (ts : List (Option ℚ)) (r : ℚ × ℚ) : Prop :=
  nanmin ts = some r.1 ∧ nanmax ts = some r.2

lemma phaseRanges_forall₂ (phases : List (List (Option ℚ)))
    (hph : ∀ ts ∈ phases, ts.filterMap id ≠ []) :
    ∃ rs, phaseRanges phases = some rs ∧ List.Forall₂ rangeOf phases rs := by
  induction phases with
  | nil => exact ⟨[], rfl, List.Forall₂.nil⟩
  | cons ts rest ih =>
      obtain ⟨mn, hmn⟩ := min?_of_ne_nil _ (hph ts (List.mem_cons_self ts rest))
      obtain ⟨mx, hmx⟩ := max?_of_ne_nil _ (hph ts (List.mem_cons_self ts rest))
      obtain ⟨rs, hrs, hf⟩ := ih (fun t ht => hph t (List.mem_cons_of_mem ts ht))
      refine ⟨(mn, mx) :: rs, ?_, List.Forall₂.cons ⟨hmn, hmx⟩ hf⟩
      simp only [phaseRanges, nanmin, nanmax, hmn, hmx, hrs]

lemma forall₂_mem_right {R : List (Option ℚ) → ℚ × ℚ → Prop}
    {phases : List (List (Option ℚ))} {rs : List (ℚ × ℚ)}
    (h : List.Forall₂ R phases rs) : ∀ r ∈ rs, ∃ ts ∈ phases, R ts r := by
  induction h with
  | nil => intro r hr; exact absurd hr (List.not_mem_nil r)
  | cons hR _ ih =>
      intro r hr
      rcases List.mem_cons.1 hr with rfl | hr2
      · exact ⟨_, List.mem_cons_self _ _, hR⟩
      · obtain ⟨ts, hts, hRr⟩ := ih r hr2
        exact ⟨ts, List.mem_cons_of_mem _ hts, hRr⟩

lemma forall₂_mem_left {R : List (Option ℚ) → ℚ × ℚ → Prop}
    {phases : List (List (Option ℚ))} {rs : List (ℚ × ℚ)}
    (h : List.Forall₂ R phases rs) : ∀ ts ∈ phases, ∃ r ∈ rs, R ts r := by
  induction h with
  | nil => intro ts hts; exact absurd hts (List.not_mem_nil ts)
  | cons hR _ ih =>
      intro ts hts
      rcases List.mem_cons.1 hts with rfl | hts2
      · exact ⟨_, List.mem_cons_self _ _, hR⟩
      · obtain ⟨r, hr, hRr⟩ := ih ts hts2
        exact ⟨r, List.mem_cons_of_mem _ hr, hRr⟩

/-- C4.  init_boundaries sets window_padding = shift_range +
detection_blinding + image_blinding, where shift_range is the maximum minus
the minimum travel time over all phases on the coarse octree, and flags the
startup error if and only if window_length < 2·window_padding + shift_range. -/
theorem C4_init_boundaries (phases : List (List (Option ℚ))) (db ib wl : ℚ)
    (hne : phases ≠ []) (hph : ∀ ts ∈ phases, ts.filterMap id ≠ []) :
    ∃ mn mx,
      (phases.flatMap (fun ts => ts.filterMap id)).min? = some mn ∧
      (phases.flatMap (fun ts => ts.filterMap id)).max? = some mx ∧
      initBoundaries phases db ib wl =
        some (mx - mn, mx - mn + db + ib,
          decide (wl < 2 * (mx - mn + db + ib) + (mx - mn))) := by
  set flat := phases.flatMap (fun ts => ts.filterMap id) with hflat
  have hflatne : flat ≠ [] := by
    cases phases with
    | nil => exact absurd rfl hne
    | cons ts rest =>
        have h1 : ts.filterMap id ≠ [] := hph ts (List.mem_cons_self ts rest)
        rw [hflat, List.flatMap_cons]
        intro hcon
        exact h1 (List.append_eq_nil.1 hcon).1
  obtain ⟨mn, hmn⟩ := min?_of_ne_nil flat hflatne
  obtain ⟨mx, hmx⟩ := max?_of_ne_nil flat hflatne
  obtain ⟨rs, hrs, hf⟩ := phaseRanges_forall₂ phases hph
  obtain ⟨hmnmem, hmnle⟩ := (min?_spec flat mn).1 hmn
  obtain ⟨hmxmem, hmxle⟩ := (max?_spec flat mx).1 hmx
  have hendmem : ∀ b ∈ rs.flatMap (fun r => [r.1, r.2]), b ∈ flat := by
    intro b hb
    obtain ⟨r, hr, hbr⟩ := List.mem_flatMap.1 hb
    obtain ⟨ts, hts, hmnr, hmxr⟩ := forall₂_mem_right hf r hr
    have h1 : r.1 ∈ ts.filterMap id := ((min?_spec _ _).1 hmnr).1
    have h2 : r.2 ∈ ts.filterMap id := ((max?_spec _ _).1 hmxr).1
    rcases List.mem_cons.1 hbr with rfl | hbr2
    · exact List.mem_flatMap.2 ⟨ts, hts, h1⟩
    · rcases List.mem_cons.1 hbr2 with rfl | hbr3
      · exact List.mem_flatMap.2 ⟨ts, hts, h2⟩
      · exact absurd hbr3 (List.not_mem_nil b)
  have hendmin : (rs.flatMap (fun r => [r.1, r.2])).min? = some mn := by
    rw [min?_spec]
    constructor
    · obtain ⟨ts, hts, hmem⟩ := List.mem_flatMap.1 hmnmem
      obtain ⟨r, hr, hmnr, hmxr⟩ := forall₂_mem_left hf ts hts
      obtain ⟨h1, h2⟩ := (min?_spec _ _).1 hmnr
      have h3 : r.1 ∈ flat := List.mem_flatMap.2 ⟨ts, hts, h1⟩
      have h4 : r.1 = mn := le_antisymm (h2 mn hmem) (hmnle r.1 h3)
      exact h4 ▸ List.mem_flatMap.2 ⟨r, hr, List.mem_cons_self _ _⟩
    · intro b hb
      exact hmnle b (hendmem b hb)
  have hendmax : (rs.flatMap (fun r => [r.1, r.2])).max? = some mx := by
    rw [max?_spec]
    constructor
    · obtain ⟨ts, hts, hmem⟩ := List.mem_flatMap.1 hmxmem
      obtain ⟨r, hr, hmnr, hmxr⟩ := forall₂_mem_left hf ts hts
      obtain ⟨h1, h2⟩ := (max?_spec _ _).1 hmxr
      have h3 : r.2 ∈ flat := List.mem_flatMap.2 ⟨ts, hts, h1⟩
      have h4 : r.2 = mx := le_antisymm (hmxle r.2 h3) (h2 mx hmem)
      exact h4 ▸ List.mem_flatMap.2 ⟨r, hr, List.mem_cons_of_mem _ (List.mem_cons_self _ _)⟩
    · intro b hb
      exact hmxle b (hendmem b hb)
  refine ⟨mn, mx, hmn, hmx, ?_⟩
  simp only [initBoundaries, hrs, hendmin, hendmax]

/-- Witness for C4: two phases with a NaN entry; travel times {3,7} and {5}. -/
theorem C4_init_boundaries_witness :
    (([ [some 3, none, some 7], [some 5] ] : List (List (Option ℚ))) ≠ [] ∧
      ∀ ts ∈ ([ [some 3, none, some 7], [some 5] ] : List (List (Option ℚ))),
        ts.filterMap id ≠ []) ∧
    ∃ mn mx,
      (([ [some 3, none, some 7], [some 5] ] :
          List (List (Option ℚ))).flatMap (fun ts => ts.filterMap id)).min? = some mn ∧
      (([ [some 3, none, some 7], [some 5] ] :
          List (List (Option ℚ))).flatMap (fun ts => ts.filterMap id)).max? = some mx ∧
      initBoundaries [ [some 3, none, some 7], [some 5] ] 1 1 20 =
        some (mx - mn, mx - mn + 1 + 1,
          decide ((20 : ℚ) < 2 * (mx - mn + 1 + 1) + (mx - mn))) :=
  ⟨⟨by decide, by decide⟩,
   C4_init_boundaries [ [some 3, none, some 7], [some 5] ] 1 1 20
     (by decide) (by decide)⟩

/-- Persisted travel-time table header (lassie/tracers/cake.py,
TraveltimeTree): earth model and phase timing identities, stored bounds for
epicentral distance, source depth and receiver depth, and the two stored
tolerances. -/
structure TtTree where
  earthmodel : ℕ
  timing : ℕ
  distanceBounds : ℚ × ℚ
  sourceDepthBounds : ℚ × ℚ
  receiverDepthBounds : ℚ × ℚ
  timeTolerance : ℚ
  spatialTolerance : ℚ
  deriving DecidableEq

/-- check_bounds inside TraveltimeTree.is_suited: the stored interval
encloses the requested one. -/
def checkBounds (stored requested : ℚ × ℚ) : Bool :=
  decide (stored.1 ≤ requested.1) && decide (stored.2 ≥ requested.2)

/-- TraveltimeTree.is_suited: stored model and timing equal the requested
ones, every stored bound interval encloses the requested one, and the
stored tolerances do not exceed the requested tolerances. -/
def isSuited (t : TtTree) (timing earthmodel : ℕ) (db sdb rdb : ℚ × ℚ)
    (tt st : ℚ) : Bool :=
  decide (t.earthmodel = earthmodel) && decide (t.timing = timing) &&
  checkBounds t.distanceBounds db && checkBounds t.sourceDepthBounds sdb &&
  checkBounds t.receiverDepthBounds rdb &&
  decide (t.timeTolerance ≤ tt) && decide (t.spatialTolerance ≤ st)

/-- CakeTracer.prepare table selection: the first cached table that
is_suited is reused; none means a fresh table is computed. -/
def prepareSelect (cached : List TtTree) (timing earthmodel : ℕ)
    (db sdb rdb : ℚ × ℚ) (tt st : ℚ) : Option TtTree :=
  cached.find? (fun t => isSuited t timing earthmodel db sdb rdb tt st)

lemma find?_true {α : Type} (p : α → Bool) (l : List α) (a : α)
    (h : l.find? p = some a) : p a = true := List.find?_some h

lemma find?_mem {α : Type} (p : α → Bool) (l : List α) (a : α)
    (h : l.find? p = some a) : a ∈ l := List.mem_of_find?_eq_some h

/-- C5.  A persisted travel-time table is reused by prepare iff is_suited
holds, and is_suited holds iff the stored model and timing equal the
requested ones, each stored bound interval encloses the requested interval,
and the stored tolerances are at most the requested tolerances. -/
theorem C5_table_reuse (cached : List TtTree) (timing earthmodel : ℕ)
    (db sdb rdb : ℚ × ℚ) (tt st : ℚ) :
    (∀ t : TtTree, isSuited t timing earthmodel db sdb rdb tt st = true ↔
      (t.earthmodel = earthmodel ∧ t.timing = timing ∧
       (t.distanceBounds.1 ≤ db.1 ∧ db.2 ≤ t.distanceBounds.2) ∧
       (t.sourceDepthBounds.1 ≤ sdb.1 ∧ sdb.2 ≤ t.sourceDepthBounds.2) ∧
       (t.receiverDepthBounds.1 ≤ rdb.1 ∧ rdb.2 ≤ t.receiverDepthBounds.2) ∧
       t.timeTolerance ≤ tt ∧ t.spatialTolerance ≤ st)) ∧
    (∀ t : TtTree, prepareSelect cached timing earthmodel db sdb rdb tt st = some t →
       t ∈ cached ∧ isSuited t timing earthmodel db sdb rdb tt st = true) ∧
    (prepareSelect cached timing earthmodel db sdb rdb tt st = none ↔
       ∀ t ∈ cached, isSuited t timing earthmodel db sdb rdb tt st = false) := by
  refine ⟨?_, ?_, ?_⟩
  · intro t
    simp only [isSuited, checkBounds, Bool.and_eq_true, decide_eq_true_eq, ge_iff_le]
    tauto
  · intro t hfind
    rw [prepareSelect] at hfind
    exact ⟨find?_mem (fun u => isSuited u timing earthmodel db sdb rdb tt st)
        cached t hfind,
      find?_true (fun u => isSuited u timing earthmodel db sdb rdb tt st)
        cached t hfind⟩
  · rw [prepareSelect, List.find?_eq_none]
    constructor
    · intro h t ht
      exact Bool.not_eq_true _ ▸ (by simpa using h t ht)
    · intro h t ht
      simp [h t ht]

/-- Concrete stored table used by the C5 witness. -/
def demoTree : TtTree :=
  { earthmodel := 7, timing := 3, distanceBounds := (0, 100),
    sourceDepthBounds := (0, 30), receiverDepthBounds := (-1, 1),
    timeTolerance := 1/10, spatialTolerance := 50 }

/-- Witness for C5: the stored table is suited to an enclosed request and is
selected for reuse. -/
theorem C5_table_reuse_witness :
    (isSuited demoTree 3 7 (10, 90) (5, 20) (0, 0) (1/5) 60 = true ↔
      (demoTree.earthmodel = 7 ∧ demoTree.timing = 3 ∧
       (demoTree.distanceBounds.1 ≤ 10 ∧ 90 ≤ demoTree.distanceBounds.2) ∧
       (demoTree.sourceDepthBounds.1 ≤ 5 ∧ 20 ≤ demoTree.sourceDepthBounds.2) ∧
       (demoTree.receiverDepthBounds.1 ≤ 0 ∧ 0 ≤ demoTree.receiverDepthBounds.2) ∧
       demoTree.timeTolerance ≤ 1/5 ∧ demoTree.spatialTolerance ≤ 60)) ∧
    (prepareSelect [demoTree] 3 7 (10, 90) (5, 20) (0, 0) (1/5) 60 = some demoTree →
      demoTree ∈ [demoTree] ∧
        isSuited demoTree 3 7 (10, 90) (5, 20) (0, 0) (1/5) 60 = true) :=
  ⟨(C5_table_reuse [demoTree] 3 7 (10, 90) (5, 20) (0, 0) (1/5) 60).1 demoTree,
   (C5_table_reuse [demoTree] 3 7 (10, 90) (5, 20) (0, 0) (1/5) 60).2.1 demoTree⟩

/-- IEEE-style float value as produced by the numpy weight computation:
a finite rational, a signed infinity, or NaN. -/
inductive NpFloat where
  | num : ℚ → NpFloat
  | posInf : NpFloat
  | negInf : NpFloat
  | nan : NpFloat
  deriving DecidableEq

/-- numpy division under errstate(divide="ignore", invalid="ignore"):
finite/finite divides, finite/0 gives a signed infinity or NaN. -/
def NpFloat.div : NpFloat → NpFloat → NpFloat
  | .nan, _ => .nan
  | _, .nan => .nan
  | .num a, .num b =>
      if b ≠ 0 then .num (a / b)
      else if 0 < a then .posInf
      else if a < 0 then .negInf
      else .nan
  | .num _, .posInf => .num 0
  | .num _, .negInf => .num 0
  | .posInf, .num b => if b < 0 then .negInf else .posInf
  | .negInf, .num b => if b < 0 then .posInf else .negInf
  | .posInf, .posInf => .nan
  | .posInf, .negInf => .nan
  | .negInf, .posInf => .nan
  | .negInf, .negInf => .nan

/-- IEEE multiplication; 0 · ∞ is NaN. -/
def NpFloat.mul : NpFloat → NpFloat → NpFloat
  | .nan, _ => .nan
  | _, .nan => .nan
  | .num a, .num b => .num (a * b)
  | .num a, .posInf => if 0 < a then .posInf else if a < 0 then .negInf else .nan
  | .posInf, .num b => if 0 < b then .posInf else if b < 0 then .negInf else .nan
  | .num a, .negInf => if 0 < a then .negInf else if a < 0 then .posInf else .nan
  | .negInf, .num b => if 0 < b then .negInf else if b < 0 then .posInf else .nan
  | .posInf, .posInf => .posInf
  | .posInf, .negInf => .negInf
  | .negInf, .posInf => .negInf
  | .negInf, .negInf => .posInf

/-- IEEE addition; ∞ + (−∞) is NaN. -/
def NpFloat.add : NpFloat → NpFloat → NpFloat
  | .nan, _ => .nan
  | _, .nan => .nan
  | .num a, .num b => .num (a + b)
  | .num _, .posInf => .posInf
  | .posInf, .num _ => .posInf
  | .num _, .negInf => .negInf
  | .negInf, .num _ => .negInf
  | .posInf, .posInf => .posInf
  | .negInf, .negInf => .negInf
  | .posInf, .negInf => .nan
  | .negInf, .posInf => .nan

/-- Station contribution count of one octree node
(SearchTraces.calculate_semblance): the number of stations whose travel
time is not NaN, as a float. -/
def stationContrib (tts : List (Option ℚ)) : ℚ :=
  ((tts.filterMap id).length : ℚ)

/-- Stacking weight row of one node for one image
(SearchTraces.calculate_semblance): fill with the image weight, divide by
the station contribution count (division by zero ignored), then zero every
entry whose travel time is NaN. -/
def nodeWeights (w : ℚ) (tts : List (Option ℚ)) : List NpFloat :=
  (tts.zip (tts.map (fun _ =>
      NpFloat.div (NpFloat.num w) (NpFloat.num (stationContrib tts))))).map
    (fun p => if p.1.isNone then NpFloat.num 0 else p.2)

/-- Stacked semblance contribution of one node: the weighted sum of the
(finite) image trace samples. -/
def nodeContribution (ws : List NpFloat) (xs : List ℚ) : NpFloat :=
  ((ws.zip xs).map (fun p => NpFloat.mul p.1 (NpFloat.num p.2))).foldl
    NpFloat.add (NpFloat.num 0)

lemma nodeWeights_length (w : ℚ) (tts : List (Option ℚ)) :
    (nodeWeights w tts).length = tts.length := by
  simp [nodeWeights]

lemma foldl_add_zero (l : List NpFloat) : ∀ acc : ℚ,
    (∀ x ∈ l, x = NpFloat.num 0) →
      l.foldl NpFloat.add (NpFloat.num acc) = NpFloat.num acc := by
  induction l with
  | nil => intro acc _; rfl
  | cons a l ih =>
      intro acc hz
      have ha : a = NpFloat.num 0 := hz a (List.mem_cons_self a l)
      rw [List.foldl_cons, ha]
      show l.foldl NpFloat.add (NpFloat.num (acc + 0)) = NpFloat.num acc
      rw [add_zero]
      exact ih acc (fun x hx => hz x (List.mem_cons_of_mem a hx))

/-- C3.  In calculate_semblance, every (node, station) entry whose travel
time is NaN gets stacking weight exactly 0; every non-NaN entry gets the
finite weight w / station_contribution (the count is then nonzero, so the
masked division leaves no NaN or infinity in the row); a node all of whose
stations have NaN travel times has an all-zero weight row and receives zero
semblance contribution from the image. -/
theorem C3_nan_weights (w : ℚ) (tts : List (Option ℚ)) :
    (∀ k : ℕ, ∀ hk1 : k < tts.length, ∀ hk2 : k < (nodeWeights w tts).length,
       tts.get ⟨k, hk1⟩ = none →
         (nodeWeights w tts).get ⟨k, hk2⟩ = NpFloat.num 0) ∧
    (∀ k : ℕ, ∀ hk1 : k < tts.length, ∀ hk2 : k < (nodeWeights w tts).length,
       (tts.get ⟨k, hk1⟩).isSome = true →
         (nodeWeights w tts).get ⟨k, hk2⟩ =
           NpFloat.num (w / stationContrib tts)) ∧
    ((∀ t ∈ tts, t = none) →
       (∀ x ∈ nodeWeights w tts, x = NpFloat.num 0) ∧
       (∀ xs : List ℚ, nodeContribution (nodeWeights w tts) xs = NpFloat.num 0)) := by
  refine ⟨?_, ?_, ?_⟩
  · intro k hk1 hk2 hnone
    simp only [nodeWeights, List.get_eq_getElem, List.getElem_map, List.getElem_zip]
    rw [List.get_eq_getElem] at hnone
    simp [hnone]
  · intro k hk1 hk2 hsome
    have hkz : k < (tts.zip (tts.map (fun _ =>
        NpFloat.div (NpFloat.num w) (NpFloat.num (stationContrib tts))))).length := by
      simpa [List.length_zip] using hk1
    simp only [nodeWeights, List.get_eq_getElem, List.getElem_map, List.getElem_zip]
    rw [List.get_eq_getElem] at hsome
    rw [Option.isSome_iff_exists] at hsome
    obtain ⟨x, hx⟩ := hsome
    have hcpos : 0 < (tts.filterMap id).length := by
      rw [List.length_pos_iff_exists_mem]
      exact ⟨x, List.mem_filterMap.2 ⟨some x, by rw [← hx]; exact List.getElem_mem hk1, rfl⟩⟩
    have hcne : stationContrib tts ≠ 0 := by
      rw [stationContrib]
      exact_mod_cast Nat.pos_iff_ne_zero.1 hcpos
    simp [hx, NpFloat.div, hcne]
  · intro hall
    have hz : ∀ x ∈ nodeWeights w tts, x = NpFloat.num 0 := by
      intro x hxmem
      simp only [nodeWeights, List.mem_map] at hxmem
      obtain ⟨p, hp, hxeq⟩ := hxmem
      have hp1 : p.1 ∈ tts := (List.of_mem_zip hp).1
      have : p.1 = none := hall p.1 hp1
      rw [← hxeq]
      simp [this]
    refine ⟨hz, ?_⟩
    intro xs
    rw [nodeContribution]
    apply foldl_add_zero
    intro x hxmem
    simp only [List.mem_map] at hxmem
    obtain ⟨p, hp, hxeq⟩ := hxmem
    have hp1 : p.1 ∈ nodeWeights w tts := (List.of_mem_zip hp).1
    have h0 : p.1 = NpFloat.num 0 := hz p.1 hp1
    rw [← hxeq, h0]
    show NpFloat.num (0 * p.2) = NpFloat.num 0
    rw [zero_mul]

/-- Witness for C3: weight 2 over travel times [NaN, 3, NaN]. -/
theorem C3_nan_weights_witness :
    (([none, some 3, none] : List (Option ℚ)).get ⟨0, by decide⟩ = none →
      (nodeWeights 2 [none, some 3, none]).get ⟨0, by decide⟩ = NpFloat.num 0) ∧
    ((([none, some 3, none] : List (Option ℚ)).get ⟨1, by decide⟩).isSome = true →
      (nodeWeights 2 [none, some 3, none]).get ⟨1, by decide⟩ =
        NpFloat.num (2 / stationContrib [none, some 3, none])) :=
  ⟨(C3_nan_weights 2 [none, some 3, none]).1 0 (by decide) (by decide),
   (C3_nan_weights 2 [none, some 3, none]).2.1 1 (by decide) (by decide)⟩

/-- Octree.get_nodes: all leaves when the threshold is falsy (0.0),
otherwise the leaves whose semblance is at least the threshold. -/
def getNodes (st : St) (fuel : ℕ) (roots : List Nat) (threshold : ℚ) : List Nat :=
  if threshold = 0 then leavesList st.heap fuel roots
  else (leavesList st.heap fuel roots).filter
    (fun i => decide (threshold ≤ (st.heap i).semblance))

/-- Error raised by DetectionUncertainty.from_event: a zero source
semblance, or numpy reducing over an empty node set. -/
structure UncertaintyError where
  deriving DecidableEq

/-- DetectionUncertainty.from_event: reject a source node with zero
semblance; collect the leaves with semblance at least peak · width, take
their center offsets relative to the source node, and return per-axis
(min, max) offset pairs. -/
def fromEvent (st : St) (fuel : ℕ) (roots : List Nat) (src : Nat) (width : ℚ) :
    Except UncertaintyError ((ℚ × ℚ) × (ℚ × ℚ) × (ℚ × ℚ)) :=
  if (st.heap src).semblance = 0 then .error ⟨⟩
  else
    let ns := getNodes st fuel roots ((st.heap src).semblance * width)
    match (ns.map (fun i => (st.heap i).east - (st.heap src).east)).min?,
          (ns.map (fun i => (st.heap i).east - (st.heap src).east)).max?,
          (ns.map (fun i => (st.heap i).north - (st.heap src).north)).min?,
          (ns.map (fun i => (st.heap i).north - (st.heap src).north)).max?,
          (ns.map (fun i => (st.heap i).depth - (st.heap src).depth)).min?,
          (ns.map (fun i => (st.heap i).depth - (st.heap src).depth)).max? with
    | some a, some b, some c, some d, some e, some f =>
        .ok ((a, b), (c, d), (e, f))
    | _, _, _, _, _, _ => .error ⟨⟩

lemma src_mem_getNodes (st : St) (fuel : ℕ) (roots : List Nat) (src : Nat)
    (width : ℚ) (hsrc : src ∈ leavesList st.heap fuel roots)
    (hw1 : width ≤ 1) (hs : 0 < (st.heap src).semblance) :
    src ∈ getNodes st fuel roots ((st.heap src).semblance * width) := by
  rw [getNodes]
  by_cases h0 : (st.heap src).semblance * width = 0
  · rw [if_pos h0]
    exact hsrc
  · rw [if_neg h0]
    refine List.mem_filter.2 ⟨hsrc, ?_⟩
    rw [decide_eq_true_eq]
    nlinarith

/-- C10.  from_event raises an error iff the source node's semblance is
zero; for a leaf source node with positive semblance every returned
uncertainty interval (east, north, depth) has lower bound ≤ 0 and upper
bound ≥ 0, because the source node itself belongs to the collected node set. -/
theorem C10_detection_uncertainty (st : St) (fuel : ℕ) (roots : List Nat)
    (src : Nat) (width : ℚ) (hsrc : src ∈ leavesList st.heap fuel roots)
    (hw0 : 0 < width) (hw1 : width ≤ 1) (hs0 : 0 ≤ (st.heap src).semblance) :
    ((∃ e, fromEvent st fuel roots src width = .error e) ↔
       (st.heap src).semblance = 0) ∧
    (∀ ue un ud, fromEvent st fuel roots src width = .ok (ue, un, ud) →
       ue.1 ≤ 0 ∧ 0 ≤ ue.2 ∧ un.1 ≤ 0 ∧ 0 ≤ un.2 ∧ ud.1 ≤ 0 ∧ 0 ≤ ud.2) := by
  by_cases hz : (st.heap src).semblance = 0
  · constructor
    · exact ⟨fun _ => hz, fun _ => ⟨⟨⟩, by rw [fromEvent, if_pos hz]⟩⟩
    · intro ue un ud hok
      rw [fromEvent, if_pos hz] at hok
      exact Except.noConfusion hok
  · have hs : 0 < (st.heap src).semblance := lt_of_le_of_ne hs0 (Ne.symm hz)
    have hmem := src_mem_getNodes st fuel roots src width hsrc hw1 hs
    set ns := getNodes st fuel roots ((st.heap src).semblance * width) with hns
    have hE : (0 : ℚ) ∈ ns.map (fun i => (st.heap i).east - (st.heap src).east) :=
      List.mem_map.2 ⟨src, hmem, sub_self _⟩
    have hN : (0 : ℚ) ∈ ns.map (fun i => (st.heap i).north - (st.heap src).north) :=
      List.mem_map.2 ⟨src, hmem, sub_self _⟩
    have hD : (0 : ℚ) ∈ ns.map (fun i => (st.heap i).depth - (st.heap src).depth) :=
      List.mem_map.2 ⟨src, hmem, sub_self _⟩
    obtain ⟨a, ha⟩ := min?_of_ne_nil _ (List.ne_nil_of_mem hE)
    obtain ⟨b, hb⟩ := max?_of_ne_nil _ (List.ne_nil_of_mem hE)
    obtain ⟨c, hc⟩ := min?_of_ne_nil _ (List.ne_nil_of_mem hN)
    obtain ⟨d, hd⟩ := max?_of_ne_nil _ (List.ne_nil_of_mem hN)
    obtain ⟨e, he⟩ := min?_of_ne_nil _ (List.ne_nil_of_mem hD)
    obtain ⟨f, hf⟩ := max?_of_ne_nil _ (List.ne_nil_of_mem hD)
    have hev : fromEvent st fuel roots src width = .ok ((a, b), (c, d), (e, f)) := by
      rw [fromEvent, if_neg hz]
      simp only [← hns, ha, hb, hc, hd, he, hf]
    constructor
    · constructor
      · rintro ⟨err, herr⟩
        rw [hev] at herr
        exact Except.noConfusion herr
      · intro h0
        exact absurd h0 hz
    · intro ue un ud hok
      rw [hev] at hok
      injection hok with hok
      have h1 := congrArg Prod.fst hok
      have h23 := congrArg Prod.snd hok
      have h2 := congrArg Prod.fst h23
      have h3 := congrArg Prod.snd h23
      have g1 : (a, b) = ue := by simpa using h1
      have g2 : (c, d) = un := by simpa using h2
      have g3 : (e, f) = ud := by simpa using h3
      subst g1
      subst g2
      subst g3
      exact ⟨((min?_spec _ a).1 ha).2 0 hE, ((max?_spec _ b).1 hb).2 0 hE,
             ((min?_spec _ c).1 hc).2 0 hN, ((max?_spec _ d).1 hd).2 0 hN,
             ((min?_spec _ e).1 he).2 0 hD, ((max?_spec _ f).1 hf).2 0 hD⟩

/-- Concrete source-node state for the C10 witness: one leaf with
semblance 1. -/
def demoStU : St :=
  { heap := fun _ =>
      { east := 0, north := 0, depth := 0, size := 2, semblance := 1,
        children := [], cached := [] },
    next := 1 }

/-- Witness for C10 at the one-leaf state with semblance 1 and width 1/2. -/
theorem C10_detection_uncertainty_witness :
    ((0 : Nat) ∈ leavesList demoStU.heap 1 [0] ∧ (0 : ℚ) < 1/2 ∧ (1/2 : ℚ) ≤ 1 ∧
      0 ≤ (demoStU.heap 0).semblance) ∧
    ((∃ e, fromEvent demoStU 1 [0] 0 (1/2) = .error e) ↔
      (demoStU.heap 0).semblance = 0) :=
  ⟨⟨by decide, by norm_num, by norm_num, by norm_num [demoStU]⟩,
   (C10_detection_uncertainty demoStU 1 [0] 0 (1/2) (by decide) (by norm_num)
     (by norm_num) (by norm_num [demoStU])).1⟩

/-- StationWeights.calc_weights (qseek/station_weights.py): the
exponential distance decay exp(−(d^p) / r^p), over the reals since the
claim concerns limits at infinity. -/
noncomputable def calcWeight (p r d : ℝ) : ℝ := Real.exp (-(d ^ p) / r ^ p)

/-- Counterexample to C9 as stated: the configurable exponent range includes
p = 0, and there the weight at distance 0 is exp(−0^0 / r^0) = exp(−1) ≠ 1
(the weight function is the constant exp(−1), which also does not tend
to 0). -/
theorem C9_counterexample :
    (0 : ℝ) ∈ Set.Icc (0 : ℝ) 3 ∧ (0 : ℝ) < 1 ∧ calcWeight 0 1 0 ≠ 1 := by
  refine ⟨by norm_num, by norm_num, ?_⟩
  unfold calcWeight
  rw [Real.rpow_zero, Real.rpow_zero]
  norm_num

/-- C9 (amended).  For every exponent p in (0, 3] and radius r > 0, the
station weight w(d) = exp(−(d/r)^p) satisfies w(0) = 1, is monotonically
non-increasing on d ≥ 0, and tends to 0 as d tends to infinity. -/
theorem C9_station_weights (p r : ℝ) (hp : 0 < p) (hp3 : p ≤ 3) (hr : 0 < r) :
    calcWeight p r 0 = 1 ∧
    (∀ a b : ℝ, 0 ≤ a → a ≤ b → calcWeight p r b ≤ calcWeight p r a) ∧
    Filter.Tendsto (fun d => calcWeight p r d) Filter.atTop (nhds 0) := by
  refine ⟨?_, ?_, ?_⟩
  · unfold calcWeight
    rw [Real.zero_rpow (ne_of_gt hp), neg_zero, zero_div, Real.exp_zero]
  · intro a b ha hab
    unfold calcWeight
    apply Real.exp_le_exp.2
    exact (div_le_div_iff_of_pos_right (Real.rpow_pos_of_pos hr p)).2
      (neg_le_neg (Real.rpow_le_rpow ha hab hp.le))
  · unfold calcWeight
    have h1 : Filter.Tendsto (fun d : ℝ => d ^ p / r ^ p) Filter.atTop
        Filter.atTop :=
      (tendsto_rpow_atTop hp).atTop_div_const (Real.rpow_pos_of_pos hr p)
    have h3 := Filter.tendsto_neg_atTop_atBot.comp h1
    have h4 : (Neg.neg ∘ fun d : ℝ => d ^ p / r ^ p) =
        fun d : ℝ => -(d ^ p) / r ^ p := by
      funext d
      simp [Function.comp, neg_div]
    rw [h4] at h3
    exact Real.tendsto_exp_atBot.comp h3

/-- Witness for the amended C9 at p = 1, r = 2. -/
theorem C9_station_weights_witness :
    ((0 : ℝ) < 1 ∧ (1 : ℝ) ≤ 3 ∧ (0 : ℝ) < 2) ∧
    (calcWeight 1 2 0 = 1 ∧
     (∀ a b : ℝ, 0 ≤ a → a ≤ b → calcWeight 1 2 b ≤ calcWeight 1 2 a) ∧
     Filter.Tendsto (fun d => calcWeight 1 2 d) Filter.atTop (nhds 0)) :=
  ⟨⟨by norm_num, by norm_num, by norm_num⟩,
   C9_station_weights 1 2 (by norm_num) (by norm_num) (by norm_num)⟩

/-- Pure observable content of an octree node: its data fields and the
content of its attached children, to a bounded depth. -/
inductive PTree where
  | node : ℚ → ℚ → ℚ → ℚ → ℚ → List PTree → PTree

/-- Snapshot of the node structure and semblance values reachable from a
node id, to a bounded depth: at depth 0 only the data fields are recorded. -/
def snap (h : Heap) : ℕ → Nat → PTree
  | 0, i => .node (h i).east (h i).north (h i).depth (h i).size (h i).semblance []
  | fuel + 1, i =>
      .node (h i).east (h i).north (h i).depth (h i).size (h i).semblance
        ((h i).children.map (snap h fuel))

/-- Thread a state-passing node operation over a list of node ids. -/
def mapState (f : St → Nat → St × Nat) : St → List Nat → St × List Nat
  | st, [] => (st, [])
  | st, i :: is =>
      let p := f st i
      let q := mapState f p.1 is
      (q.1, p.2 :: q.2)

/-- pydantic copy(deep=True) of a node object: allocate a fresh object with
the same data whose children and memoized children are deep copies,
recursion bounded by fuel (a faithful copy needs fuel at least the tree
height). -/
def copyNode : ℕ → St → Nat → St × Nat
  | 0, st, i => allocNode st { st.heap i with children := [], cached := [] }
  | fuel + 1, st, i =>
      let c := mapState (copyNode fuel) st (st.heap i).children
      let k := mapState (copyNode fuel) c.1 (st.heap i).cached
      allocNode k.1 { st.heap i with children := c.2, cached := k.2 }

/-- Every id stored below the allocation frontier points below the
allocation frontier (true of every state the Python program can reach). -/
def wellFormed (st : St) : Prop :=
  ∀ i, i < st.next →
    (∀ j ∈ (st.heap i).children, j < st.next) ∧
    (∀ j ∈ (st.heap i).cached, j < st.next)

/-- Lower closure of the freshly copied segment: every id stored in a node
at or above lo points at or above lo. -/
def segLower (st : St) (lo : ℕ) : Prop :=
  ∀ i, lo ≤ i → i < st.next →
    (∀ j ∈ (st.heap i).children, lo ≤ j) ∧
    (∀ j ∈ (st.heap i).cached, lo ≤ j)

lemma snap_agree (fuel : ℕ) : ∀ h1 h2 : Heap, ∀ n : ℕ, ∀ i : Nat,
    i < n →
    (∀ j, j < n → (∀ m ∈ (h1 j).children, m < n) ∧ (∀ m ∈ (h1 j).cached, m < n)) →
    (∀ j, j < n → h1 j = h2 j) →
    snap h1 fuel i = snap h2 fuel i := by
  induction fuel with
  | zero =>
      intro h1 h2 n i hi _ hag
      simp [snap, hag i hi]
  | succ fuel ih =>
      intro h1 h2 n i hi hcl hag
      have hieq := hag i hi
      simp only [snap, hieq]
      congr 1
      apply List.map_congr_left
      intro c hc
      have hcn : c < n := (hcl i hi).1 c (by rw [← hieq] at hc; exact hc)
      exact ih h1 h2 n c hcn hcl hag

lemma allocNode_next (st : St) (d : NodeData) :
    (allocNode st d).1.next = st.next + 1 := rfl

lemma allocNode_heap_self (st : St) (d : NodeData) :
    (allocNode st d).1.heap st.next = d := by
  show (if st.next = st.next then d else st.heap st.next) = d
  rw [if_pos rfl]

lemma allocNode_heap_new (st : St) (d : NodeData) :
    (allocNode st d).1.heap (allocNode st d).2 = d := by
  show (if st.next = st.next then d else st.heap st.next) = d
  rw [if_pos rfl]

lemma allocNode_heap_other (st : St) (d : NodeData) (j : Nat) (h : j ≠ st.next) :
    (allocNode st d).1.heap j = st.heap j := by
  show (if j = st.next then d else st.heap j) = st.heap j
  rw [if_neg h]

/-- Specification of a state-passing node operation that only allocates:
the frontier grows, the result is a fresh id, ids below the old frontier
are untouched, and every new entry only references the new segment. -/
def opSpec (f : St → Nat → St × Nat) : Prop :=
  ∀ st i,
    st.next ≤ (f st i).1.next ∧
    st.next ≤ (f st i).2 ∧
    (f st i).2 < (f st i).1.next ∧
    (∀ j, j < st.next → (f st i).1.heap j = st.heap j) ∧
    (∀ j, st.next ≤ j → j < (f st i).1.next →
       (∀ m ∈ ((f st i).1.heap j).children, st.next ≤ m ∧ m < (f st i).1.next) ∧
       (∀ m ∈ ((f st i).1.heap j).cached, st.next ≤ m ∧ m < (f st i).1.next))

lemma mapState_spec (f : St → Nat → St × Nat) (hf : opSpec f) :
    ∀ is : List Nat, ∀ st : St,
    st.next ≤ (mapState f st is).1.next ∧
    (∀ c ∈ (mapState f st is).2, st.next ≤ c ∧ c < (mapState f st is).1.next) ∧
    (∀ j, j < st.next → (mapState f st is).1.heap j = st.heap j) ∧
    (∀ j, st.next ≤ j → j < (mapState f st is).1.next →
       (∀ m ∈ ((mapState f st is).1.heap j).children,
          st.next ≤ m ∧ m < (mapState f st is).1.next) ∧
       (∀ m ∈ ((mapState f st is).1.heap j).cached,
          st.next ≤ m ∧ m < (mapState f st is).1.next)) := by
  intro is
  induction is with
  | nil =>
      intro st
      have hnx : (mapState f st []).1.next = st.next := rfl
      refine ⟨le_refl _, ?_, fun j _ => rfl, ?_⟩
      · intro c hc
        exact absurd hc (List.not_mem_nil c)
      · intro j h1 h2
        rw [hnx] at h2
        omega
  | cons i is ih =>
      intro st
      obtain ⟨hn1, hr1, hr2, hfr1, hseg1⟩ := hf st i
      obtain ⟨hn2, hmem2, hfr2, hseg2⟩ := ih (f st i).1
      have hq : mapState f st (i :: is) =
          ((mapState f (f st i).1 is).1, (f st i).2 :: (mapState f (f st i).1 is).2) := rfl
      rw [hq]
      refine ⟨le_trans hn1 hn2, ?_, ?_, ?_⟩
      · intro c hc
        rcases List.mem_cons.1 hc with rfl | hc2
        · exact ⟨hr1, lt_of_lt_of_le hr2 hn2⟩
        · have := hmem2 c hc2
          exact ⟨le_trans hn1 this.1, this.2⟩
      · intro j hj
        rw [hfr2 j (lt_of_lt_of_le hj hn1), hfr1 j hj]
      · intro j h1 h2
        by_cases hj : j < (f st i).1.next
        · have heq : (mapState f (f st i).1 is).1.heap j = (f st i).1.heap j :=
            hfr2 j hj
          rw [heq]
          obtain ⟨hc, hk⟩ := hseg1 j h1 hj
          constructor
          · intro m hm
            obtain ⟨hm1, hm2⟩ := hc m hm
            exact ⟨hm1, lt_of_lt_of_le hm2 hn2⟩
          · intro m hm
            obtain ⟨hm1, hm2⟩ := hk m hm
            exact ⟨hm1, lt_of_lt_of_le hm2 hn2⟩
        · obtain ⟨hc, hk⟩ := hseg2 j (by omega) h2
          constructor
          · intro m hm
            obtain ⟨hm1, hm2⟩ := hc m hm
            exact ⟨le_trans hn1 hm1, hm2⟩
          · intro m hm
            obtain ⟨hm1, hm2⟩ := hk m hm
            exact ⟨le_trans hn1 hm1, hm2⟩

lemma copyNode_opSpec : ∀ fuel : ℕ, opSpec (copyNode fuel) := by
  intro fuel
  induction fuel with
  | zero =>
      intro st i
      have hres : copyNode 0 st i =
          allocNode st { st.heap i with children := [], cached := [] } := rfl
      rw [hres]
      refine ⟨Nat.le_succ _, le_refl _, Nat.lt_succ_self _, ?_, ?_⟩
      · intro j hj
        exact allocNode_heap_other st _ j (by omega)
      · intro j h1 h2
        rw [allocNode_next] at h2
        have hj : j = st.next := by omega
        subst hj
        rw [allocNode_heap_self]
        constructor
        · intro m hm
          exact absurd hm (List.not_mem_nil m)
        · intro m hm
          exact absurd hm (List.not_mem_nil m)
  | succ fuel ih =>
      intro st i
      obtain ⟨hcn, hcmem, hcfr, hcseg⟩ := mapState_spec (copyNode fuel) ih
        (st.heap i).children st
      set c := mapState (copyNode fuel) st (st.heap i).children with hc
      obtain ⟨hkn, hkmem, hkfr, hkseg⟩ := mapState_spec (copyNode fuel) ih
        (st.heap i).cached c.1
      set k := mapState (copyNode fuel) c.1 (st.heap i).cached with hk
      have hres : copyNode (fuel + 1) st i =
          allocNode k.1 { st.heap i with children := c.2, cached := k.2 } := rfl
      rw [hres]
      have hnx : (allocNode k.1 { st.heap i with children := c.2, cached := k.2 }).1.next
          = k.1.next + 1 := rfl
      refine ⟨?_, ?_, ?_, ?_, ?_⟩
      · show st.next ≤ k.1.next + 1
        omega
      · show st.next ≤ k.1.next
        omega
      · show k.1.next < k.1.next + 1
        omega
      · intro j hj
        show (if j = k.1.next then _ else k.1.heap j) = st.heap j
        rw [if_neg (by omega), hkfr j (by omega), hcfr j hj]
      · intro j h1 h2
        rw [allocNode_next] at h2
        by_cases hj : j = k.1.next
        · subst hj
          rw [allocNode_heap_self]
          rw [allocNode_next]
          constructor
          · intro m hm
            have := hcmem m hm
            exact ⟨this.1, by omega⟩
          · intro m hm
            have := hkmem m hm
            exact ⟨le_trans hcn this.1, by omega⟩
        · have hlt : j < k.1.next := by omega
          have heq : (allocNode k.1
              { st.heap i with children := c.2, cached := k.2 }).1.heap j = k.1.heap j :=
            allocNode_heap_other k.1 _ j hj
          rw [heq]
          rw [allocNode_next]
          by_cases hjc : j < c.1.next
          · have heq2 : k.1.heap j = c.1.heap j := hkfr j hjc
            rw [heq2]
            obtain ⟨hch, hca⟩ := hcseg j h1 hjc
            constructor
            · intro m hm
              obtain ⟨hm1, hm2⟩ := hch m hm
              exact ⟨hm1, by omega⟩
            · intro m hm
              obtain ⟨hm1, hm2⟩ := hca m hm
              exact ⟨hm1, by omega⟩
          · obtain ⟨hch, hca⟩ := hkseg j (by omega) hlt
            constructor
            · intro m hm
              obtain ⟨hm1, hm2⟩ := hch m hm
              exact ⟨le_trans hcn hm1, by omega⟩
            · intro m hm
              obtain ⟨hm1, hm2⟩ := hca m hm
              exact ⟨le_trans hcn hm1, by omega⟩

lemma opSpec_wf (f : St → Nat → St × Nat) (hf : opSpec f) (st : St) (i : Nat)
    (hw : wellFormed st) : wellFormed (f st i).1 := by
  intro j hj
  obtain ⟨hn, _, _, hfr, hseg⟩ := hf st i
  by_cases hjn : j < st.next
  · rw [hfr j hjn]
    obtain ⟨hc, hk⟩ := hw j hjn
    exact ⟨fun m hm => lt_of_lt_of_le (hc m hm) hn,
           fun m hm => lt_of_lt_of_le (hk m hm) hn⟩
  · obtain ⟨hc, hk⟩ := hseg j (by omega) hj
    exact ⟨fun m hm => (hc m hm).2, fun m hm => (hk m hm).2⟩

lemma mapState_wf (f : St → Nat → St × Nat) (hf : opSpec f) :
    ∀ is : List Nat, ∀ st : St, wellFormed st →
      wellFormed (mapState f st is).1 := by
  intro is
  induction is with
  | nil => intro st hw; exact hw
  | cons i is ih =>
      intro st hw
      exact ih (f st i).1 (opSpec_wf f hf st i hw)

lemma copyNode_snap : ∀ fuel : ℕ, ∀ st : St, ∀ i : Nat,
    wellFormed st → i < st.next →
    snap (copyNode fuel st i).1.heap fuel (copyNode fuel st i).2 =
      snap st.heap fuel i := by
  intro fuel
  induction fuel with
  | zero =>
      intro st i _ _
      have hres : copyNode 0 st i =
          allocNode st { st.heap i with children := [], cached := [] } := rfl
      rw [hres]
      show PTree.node _ _ _ _ _ [] = PTree.node _ _ _ _ _ []
      rw [allocNode_heap_new]
  | succ fuel ih =>
      intro st i hw hi
      have hinner : ∀ is : List Nat, ∀ st0 : St, wellFormed st0 →
          (∀ j ∈ is, j < st0.next) →
          (mapState (copyNode fuel) st0 is).2.map
              (snap (mapState (copyNode fuel) st0 is).1.heap fuel) =
            is.map (snap st0.heap fuel) := by
        intro is
        induction is with
        | nil => intro st0 _ _; rfl
        | cons j js ihl =>
            intro st0 hw0 hjs
            obtain ⟨hpn, hpr, hpr2, hpfr, hpseg⟩ := copyNode_opSpec fuel st0 j
            obtain ⟨hqn, hqmem, hqfr, hqseg⟩ :=
              mapState_spec (copyNode fuel) (copyNode_opSpec fuel) js (copyNode fuel st0 j).1
            have hwp : wellFormed (copyNode fuel st0 j).1 :=
              opSpec_wf _ (copyNode_opSpec fuel) st0 j hw0
            have hq : mapState (copyNode fuel) st0 (j :: js) =
                ((mapState (copyNode fuel) (copyNode fuel st0 j).1 js).1,
                 (copyNode fuel st0 j).2 ::
                   (mapState (copyNode fuel) (copyNode fuel st0 j).1 js).2) := rfl
            rw [hq, List.map_cons, List.map_cons]
            congr 1
            · -- head: the copied node keeps its snapshot through later copies
              have hag : snap (mapState (copyNode fuel) (copyNode fuel st0 j).1 js).1.heap
                  fuel (copyNode fuel st0 j).2 =
                  snap (copyNode fuel st0 j).1.heap fuel (copyNode fuel st0 j).2 := by
                apply snap_agree fuel _ _ (copyNode fuel st0 j).1.next _ hpr2
                · intro m hm
                  rw [hqfr m hm]
                  exact hwp m hm
                · intro m hm
                  exact hqfr m hm
              rw [hag]
              exact ih st0 j hw0 (hjs j (List.mem_cons_self j js))
            · -- tail
              have htail := ihl (copyNode fuel st0 j).1 hwp
                (fun m hm => lt_of_lt_of_le (hjs m (List.mem_cons_of_mem j hm)) hpn)
              rw [htail]
              apply List.map_congr_left
              intro m hm
              apply snap_agree fuel _ _ st0.next _ (hjs m (List.mem_cons_of_mem j hm))
              · intro u hu
                rw [hpfr u hu]
                exact hw0 u hu
              · intro u hu
                exact hpfr u hu
      obtain ⟨hcn, hcmem, hcfr, hcseg⟩ :=
        mapState_spec (copyNode fuel) (copyNode_opSpec fuel) (st.heap i).children st
      obtain ⟨hkn, hkmem, hkfr, hkseg⟩ :=
        mapState_spec (copyNode fuel) (copyNode_opSpec fuel) (st.heap i).cached
          (mapState (copyNode fuel) st (st.heap i).children).1
      have hwc : wellFormed (mapState (copyNode fuel) st (st.heap i).children).1 :=
        mapState_wf (copyNode fuel) (copyNode_opSpec fuel) (st.heap i).children st hw
      have hres : copyNode (fuel + 1) st i =
          allocNode (mapState (copyNode fuel)
              (mapState (copyNode fuel) st (st.heap i).children).1 (st.heap i).cached).1
            { st.heap i with
              children := (mapState (copyNode fuel) st (st.heap i).children).2
              cached := (mapState (copyNode fuel)
                (mapState (copyNode fuel) st (st.heap i).children).1 (st.heap i).cached).2 } :=
        rfl
      rw [hres]
      show PTree.node _ _ _ _ _ _ = PTree.node _ _ _ _ _ _
      rw [allocNode_heap_new]
      have hchildren : ((mapState (copyNode fuel) st (st.heap i).children).2.map
          (snap (allocNode (mapState (copyNode fuel)
              (mapState (copyNode fuel) st (st.heap i).children).1 (st.heap i).cached).1
            { st.heap i with
              children := (mapState (copyNode fuel) st (st.heap i).children).2
              cached := (mapState (copyNode fuel)
                (mapState (copyNode fuel) st (st.heap i).children).1
                  (st.heap i).cached).2 }).1.heap fuel)) =
          (st.heap i).children.map (snap st.heap fuel) := by
        have hstep1 : ∀ m ∈ (mapState (copyNode fuel) st (st.heap i).children).2,
            snap (allocNode (mapState (copyNode fuel)
                (mapState (copyNode fuel) st (st.heap i).children).1 (st.heap i).cached).1
              { st.heap i with
                children := (mapState (copyNode fuel) st (st.heap i).children).2
                cached := (mapState (copyNode fuel)
                  (mapState (copyNode fuel) st (st.heap i).children).1
                    (st.heap i).cached).2 }).1.heap fuel m =
            snap (mapState (copyNode fuel) st (st.heap i).children).1.heap fuel m := by
          intro m hm
          apply snap_agree fuel _ _
            (mapState (copyNode fuel) st (st.heap i).children).1.next _ (hcmem m hm).2
          · intro u hu
            rw [allocNode_heap_other _ _ u (by omega), hkfr u hu]
            exact hwc u hu
          · intro u hu
            rw [allocNode_heap_other _ _ u (by omega), hkfr u hu]
        rw [List.map_congr_left hstep1]
        exact hinner (st.heap i).children st hw (fun m hm => (hw i hi).1 m hm)
      exact congrArg (PTree.node _ _ _ _ _) hchildren

/-- Split a node, recovering locally from NodeSplitError by skipping the
node, as the refinement loop in SearchTraces.search does. -/
def trySplit (limit : ℚ) (s : St) (i : Nat) : St :=
  match splitNode limit s i with
  | .ok p => p.1
  | .error _ => s

/-- Octree-affecting skeleton of SearchTraces.search on one frame: at each
recursion level map a semblance vector onto the leaves, collect the leaves
selected for refinement (a predicate on the node record, abstracting the
numeric peak thresholds), split them (skipping unsplittable nodes), and
recurse on the refined octree; when no node is selected, map the peak time
slice once more and emit.  The semblance values and refinement decisions
are oracles, since the claim must hold for every numeric outcome. -/
def searchFrame (limit : ℚ) (semOracle : ℕ → List ℚ)
    (refOracle : ℕ → NodeData → Bool) (travFuel : ℕ) :
    ℕ → St → List Nat → St
  | 0, st, _ => st
  | depth + 1, st, roots =>
      let lvs := leavesList st.heap travFuel roots
      let st1 := (mapSemblance st lvs (semOracle (depth + 1))).1
      let sel := lvs.filter (fun i => refOracle (depth + 1) (st1.heap i))
      if sel.isEmpty then
        (mapSemblance st1 lvs (semOracle 0)).1
      else
        searchFrame limit semOracle refOracle travFuel depth
          (sel.foldl (trySplit limit) st1) roots

/-- Invariant of the working (deep-copied) octree during one frame: the
copy segment starts at n0, the roots lie in it, the heap is well formed,
and the segment only references itself. -/
def searchInv (st : St) (n0 : ℕ) (roots : List Nat) : Prop :=
  n0 ≤ st.next ∧ (∀ r ∈ roots, n0 ≤ r ∧ r < st.next) ∧ wellFormed st ∧
    segLower st n0

lemma leavesAux_range (st : St) (n0 : ℕ) (hw : wellFormed st)
    (hs : segLower st n0) : ∀ fuel : ℕ, ∀ i : Nat, n0 ≤ i → i < st.next →
    ∀ l ∈ leavesAux st.heap fuel i, n0 ≤ l ∧ l < st.next := by
  intro fuel
  induction fuel with
  | zero =>
      intro i _ _ l hl
      exact absurd hl (List.not_mem_nil l)
  | succ fuel ih =>
      intro i hi1 hi2 l hl
      rw [leavesAux] at hl
      by_cases hce : (st.heap i).children.isEmpty = true
      · rw [if_pos hce] at hl
        rcases List.mem_cons.1 hl with rfl | hl2
        · exact ⟨hi1, hi2⟩
        · exact absurd hl2 (List.not_mem_nil l)
      · rw [if_neg hce] at hl
        obtain ⟨c, hc, hlc⟩ := List.mem_flatMap.1 hl
        have hcr : n0 ≤ c := (hs i hi1 hi2).1 c hc
        have hcu : c < st.next := (hw i hi2).1 c hc
        exact ih c hcr hcu l hlc

lemma leavesList_range (st : St) (n0 : ℕ) (roots : List Nat) (fuel : ℕ)
    (hw : wellFormed st) (hs : segLower st n0)
    (hr : ∀ r ∈ roots, n0 ≤ r ∧ r < st.next) :
    ∀ l ∈ leavesList st.heap fuel roots, n0 ≤ l ∧ l < st.next := by
  intro l hl
  obtain ⟨r, hrm, hlr⟩ := List.mem_flatMap.1 hl
  exact leavesAux_range st n0 hw hs fuel r (hr r hrm).1 (hr r hrm).2 l hlr

lemma writeFold_next (ps : List (Nat × ℚ)) : ∀ st : St,
    (writeFold st ps).next = st.next := by
  induction ps with
  | nil => intro st; rfl
  | cons a ps ih =>
      intro st
      rw [writeFold_cons, ih]
      rfl

/-- mapSemblance only changes semblance fields of ids drawn from the leaf
list: the frontier, all children/cached lists, and every id outside the
written set are untouched. -/
lemma mapSemblance_frame (st : St) (lvs : List Nat) (v : List ℚ) (n0 : ℕ)
    (hlv : ∀ l ∈ lvs, n0 ≤ l) :
    (mapSemblance st lvs v).1.next = st.next ∧
    (∀ j, j < n0 → (mapSemblance st lvs v).1.heap j = st.heap j) ∧
    (∀ j, ((mapSemblance st lvs v).1.heap j).children = (st.heap j).children ∧
          ((mapSemblance st lvs v).1.heap j).cached = (st.heap j).cached) := by
  refine ⟨writeFold_next _ _, ?_, ?_⟩
  · intro j hj
    apply writeFold_not_mem
    rw [map_fst_zip_eq_take]
    intro hmem
    have := hlv j (List.mem_of_mem_take hmem)
    omega
  · intro j
    rcases writeFold_shape (lvs.zip v) st j with h | ⟨q, h⟩
    · rw [show (mapSemblance st lvs v).1 = writeFold st (lvs.zip v) from rfl, h]
      exact ⟨rfl, rfl⟩
    · rw [show (mapSemblance st lvs v).1 = writeFold st (lvs.zip v) from rfl, h]
      exact ⟨rfl, rfl⟩

lemma mapSemblance_inv (st : St) (lvs : List Nat) (v : List ℚ) (n0 : ℕ)
    (roots : List Nat) (hlv : ∀ l ∈ lvs, n0 ≤ l)
    (hinv : searchInv st n0 roots) :
    searchInv (mapSemblance st lvs v).1 n0 roots := by
  obtain ⟨h1, h2, h3, h4⟩ := hinv
  obtain ⟨hn, _, hstruct⟩ := mapSemblance_frame st lvs v n0 hlv
  refine ⟨by omega, ?_, ?_, ?_⟩
  · intro r hr
    rw [hn]
    exact h2 r hr
  · intro j hj
    rw [hn] at hj
    rw [(hstruct j).1, (hstruct j).2, hn]
    exact h3 j hj
  · intro j hj1 hj2
    rw [hn] at hj2
    rw [(hstruct j).1, (hstruct j).2]
    exact h4 j hj1 hj2

lemma splitNode_ok_spec (limit : ℚ) (st : St) (i : Nat) (st2 : St)
    (cs : List Nat) (hi : i < st.next)
    (hok : splitNode limit st i = .ok (st2, cs)) :
    st.next ≤ st2.next ∧
    (∀ j, j ≠ i → j < st.next → st2.heap j = st.heap j) ∧
    (∀ m ∈ (st2.heap i).children ++ (st2.heap i).cached,
       m ∈ (st.heap i).cached ∨ (st.next ≤ m ∧ m < st2.next)) ∧
    (∀ j, st.next ≤ j → j < st2.next →
       (st2.heap j).children = [] ∧ (st2.heap j).cached = []) := by
  by_cases hce : (st.heap i).cached.isEmpty = true
  · by_cases hlt : (st.heap i).size / 2 < limit
    · simp only [splitNode, hce, if_true, if_pos hlt] at hok
      exact Except.noConfusion hok
    · simp only [splitNode, hce, if_true, if_neg hlt] at hok
      injection hok with hok
      have hst2 : st2 = writeNode (allocList st (childData (st.heap i))).1 i
          { st.heap i with
            children := (allocList st (childData (st.heap i))).2
            cached := (allocList st (childData (st.heap i))).2 } :=
        (congrArg Prod.fst hok).symm
      have hids := allocList_ids (childData (st.heap i)) st
      have hnext : st2.next = st.next + 8 := by
        rw [hst2]
        show (allocList st (childData (st.heap i))).1.next = st.next + 8
        rw [allocList_next, childData_length]
      have hheapi : st2.heap i =
          { st.heap i with
            children := (allocList st (childData (st.heap i))).2
            cached := (allocList st (childData (st.heap i))).2 } := by
        rw [hst2]
        show (if i = i then _ else _) = _
        rw [if_pos rfl]
      refine ⟨by omega, ?_, ?_, ?_⟩
      · intro j hji hj
        rw [hst2]
        show (if j = i then _ else (allocList st (childData (st.heap i))).1.heap j)
          = st.heap j
        rw [if_neg hji]
        exact allocList_heap_lt _ _ _ hj
      · intro m hm
        rw [hheapi] at hm
        have hmr : m ∈ (allocList st (childData (st.heap i))).2 := by
          simpa using hm
        rw [hids, List.mem_range'_1, childData_length] at hmr
        right
        omega
      · intro j hj1 hj2
        rw [hnext] at hj2
        have hji : j ≠ i := by omega
        have hj2h : st2.heap j = (allocList st (childData (st.heap i))).1.heap j := by
          rw [hst2]
          show (if j = i then _ else (allocList st (childData (st.heap i))).1.heap j)
            = (allocList st (childData (st.heap i))).1.heap j
          rw [if_neg hji]
        have hjmem : j ∈ (allocList st (childData (st.heap i))).2 := by
          rw [hids, List.mem_range'_1, childData_length]
          omega
        have hdm : (allocList st (childData (st.heap i))).1.heap j ∈
            childData (st.heap i) := by
          have hmm := List.mem_map_of_mem
            (allocList st (childData (st.heap i))).1.heap hjmem
          rw [allocList_heap_map (childData (st.heap i)) st] at hmm
          exact hmm
        rw [mem_childData_iff] at hdm
        obtain ⟨e, _, n, _, dp, _, heq⟩ := hdm
        rw [hj2h, heq]
        exact ⟨rfl, rfl⟩
  · simp only [splitNode, hce, if_false] at hok
    injection hok with hok
    have hst2 : st2 = writeNode st i
        { st.heap i with children := (st.heap i).cached } :=
      (congrArg Prod.fst hok).symm
    have hnext : st2.next = st.next := by rw [hst2]; rfl
    have hheapi : st2.heap i =
        { st.heap i with children := (st.heap i).cached } := by
      rw [hst2]
      show (if i = i then _ else _) = _
      rw [if_pos rfl]
    refine ⟨by omega, ?_, ?_, ?_⟩
    · intro j hji _
      rw [hst2]
      show (if j = i then _ else st.heap j) = st.heap j
      rw [if_neg hji]
    · intro m hm
      rw [hheapi] at hm
      left
      simpa using hm
    · intro j hj1 hj2
      rw [hnext] at hj2
      omega

lemma trySplit_inv (limit : ℚ) (st : St) (i : Nat) (n0 : ℕ) (roots : List Nat)
    (hi1 : n0 ≤ i) (hi2 : i < st.next) (hinv : searchInv st n0 roots) :
    searchInv (trySplit limit st i) n0 roots ∧
    st.next ≤ (trySplit limit st i).next ∧
    (∀ j, j < n0 → (trySplit limit st i).heap j = st.heap j) := by
  obtain ⟨h1, h2, h3, h4⟩ := hinv
  cases hsp : splitNode limit st i with
  | error e =>
      have hid : trySplit limit st i = st := by rw [trySplit, hsp]
      rw [hid]
      exact ⟨⟨h1, h2, h3, h4⟩, le_refl _, fun j _ => rfl⟩
  | ok p =>
      have hid : trySplit limit st i = p.1 := by rw [trySplit, hsp]
      obtain ⟨hnle, hfr, hrefs, hseg⟩ :=
        splitNode_ok_spec limit st i p.1 p.2 hi2 (by rw [hsp])
      rw [hid]
      have hwf2 : wellFormed p.1 := by
        intro j hj
        by_cases hji : j = i
        · subst hji
          constructor
          · intro m hm
            rcases hrefs m (List.mem_append_left _ hm) with h | h
            · exact lt_of_lt_of_le ((h3 j hi2).2 m h) hnle
            · exact h.2
          · intro m hm
            rcases hrefs m (List.mem_append_right _ hm) with h | h
            · exact lt_of_lt_of_le ((h3 j hi2).2 m h) hnle
            · exact h.2
        · by_cases hjl : j < st.next
          · rw [hfr j hji hjl]
            obtain ⟨hc, hk⟩ := h3 j hjl
            exact ⟨fun m hm => lt_of_lt_of_le (hc m hm) hnle,
                   fun m hm => lt_of_lt_of_le (hk m hm) hnle⟩
          · obtain ⟨hc, hk⟩ := hseg j (by omega) hj
            rw [hc, hk]
            exact ⟨fun m hm => absurd hm (List.not_mem_nil m),
                   fun m hm => absurd hm (List.not_mem_nil m)⟩
      have hsl2 : segLower p.1 n0 := by
        intro j hj1 hj2
        by_cases hji : j = i
        · subst hji
          constructor
          · intro m hm
            rcases hrefs m (List.mem_append_left _ hm) with h | h
            · exact (h4 j hj1 hi2).2 m h
            · omega
          · intro m hm
            rcases hrefs m (List.mem_append_right _ hm) with h | h
            · exact (h4 j hj1 hi2).2 m h
            · omega
        · by_cases hjl : j < st.next
          · rw [hfr j hji hjl]
            exact h4 j hj1 hjl
          · obtain ⟨hc, hk⟩ := hseg j (by omega) hj2
            rw [hc, hk]
            exact ⟨fun m hm => absurd hm (List.not_mem_nil m),
                   fun m hm => absurd hm (List.not_mem_nil m)⟩
      refine ⟨⟨by omega, ?_, hwf2, hsl2⟩, hnle, ?_⟩
      · intro r hr
        obtain ⟨hr1, hr2⟩ := h2 r hr
        exact ⟨hr1, by omega⟩
      · intro j hj
        exact hfr j (by omega) (by omega)

lemma foldl_trySplit_inv (limit : ℚ) (n0 : ℕ) (roots : List Nat) :
    ∀ l : List Nat, ∀ st : St, (∀ i ∈ l, n0 ≤ i ∧ i < st.next) →
      searchInv st n0 roots →
      searchInv (l.foldl (trySplit limit) st) n0 roots ∧
      st.next ≤ (l.foldl (trySplit limit) st).next ∧
      (∀ j, j < n0 → (l.foldl (trySplit limit) st).heap j = st.heap j) := by
  intro l
  induction l with
  | nil =>
      intro st _ hinv
      exact ⟨hinv, le_refl _, fun j _ => rfl⟩
  | cons i l ih =>
      intro st hl hinv
      obtain ⟨hi1, hi2⟩ := hl i (List.mem_cons_self i l)
      obtain ⟨hinv1, hn1, hfr1⟩ := trySplit_inv limit st i n0 roots hi1 hi2 hinv
      obtain ⟨hinv2, hn2, hfr2⟩ := ih (trySplit limit st i)
        (fun m hm => ⟨(hl m (List.mem_cons_of_mem i hm)).1,
          lt_of_lt_of_le (hl m (List.mem_cons_of_mem i hm)).2 hn1⟩) hinv1
      rw [List.foldl_cons]
      exact ⟨hinv2, le_trans hn1 hn2, fun j hj => (hfr2 j hj).trans (hfr1 j hj)⟩

lemma searchFrame_frame (limit : ℚ) (semOracle : ℕ → List ℚ)
    (refOracle : ℕ → NodeData → Bool) (travFuel : ℕ) (n0 : ℕ) :
    ∀ depth : ℕ, ∀ st : St, ∀ roots : List Nat,
      searchInv st n0 roots →
      searchInv (searchFrame limit semOracle refOracle travFuel depth st roots)
          n0 roots ∧
      st.next ≤ (searchFrame limit semOracle refOracle travFuel depth st roots).next ∧
      (∀ j, j < n0 →
        (searchFrame limit semOracle refOracle travFuel depth st roots).heap j =
          st.heap j) := by
  intro depth
  induction depth with
  | zero =>
      intro st roots hinv
      exact ⟨hinv, le_refl _, fun j _ => rfl⟩
  | succ depth ih =>
      intro st roots hinv
      have hlv : ∀ l ∈ leavesList st.heap travFuel roots, n0 ≤ l ∧ l < st.next :=
        leavesList_range st n0 roots travFuel hinv.2.2.1 hinv.2.2.2 hinv.2.1
      have hinv1 := mapSemblance_inv st (leavesList st.heap travFuel roots)
        (semOracle (depth + 1)) n0 roots (fun l hl => (hlv l hl).1) hinv
      obtain ⟨hn1, hfr1, _⟩ := mapSemblance_frame st
        (leavesList st.heap travFuel roots) (semOracle (depth + 1)) n0
        (fun l hl => (hlv l hl).1)
      set st1 := (mapSemblance st (leavesList st.heap travFuel roots)
        (semOracle (depth + 1))).1 with hst1
      set lvs := leavesList st.heap travFuel roots with hlvs
      set sel := lvs.filter (fun i => refOracle (depth + 1) (st1.heap i)) with hsel
      have hunf : searchFrame limit semOracle refOracle travFuel (depth + 1) st roots =
          if sel.isEmpty then (mapSemblance st1 lvs (semOracle 0)).1
          else searchFrame limit semOracle refOracle travFuel depth
            (sel.foldl (trySplit limit) st1) roots := rfl
      rw [hunf]
      by_cases hemp : sel.isEmpty = true
      · rw [if_pos hemp]
        have hinv2 := mapSemblance_inv st1 lvs (semOracle 0) n0 roots
          (fun l hl => (hlv l hl).1) hinv1
        obtain ⟨hn2, hfr2, _⟩ := mapSemblance_frame st1 lvs (semOracle 0) n0
          (fun l hl => (hlv l hl).1)
        refine ⟨hinv2, ?_, ?_⟩
        · rw [hn2, hn1]
        · intro j hj
          rw [hfr2 j hj, hfr1 j hj]
      · rw [if_neg hemp]
        have hselb : ∀ i ∈ sel, n0 ≤ i ∧ i < st1.next := by
          intro i hi
          have : i ∈ lvs := List.mem_of_mem_filter hi
          obtain ⟨ha, hb⟩ := hlv i this
          rw [hn1]
          exact ⟨ha, hb⟩
        obtain ⟨hinv2, hn2, hfr2⟩ :=
          foldl_trySplit_inv limit n0 roots sel st1 hselb hinv1
        obtain ⟨hinv3, hn3, hfr3⟩ := ih (sel.foldl (trySplit limit) st1) roots hinv2
        refine ⟨hinv3, ?_, ?_⟩
        · exact le_trans (le_trans (le_of_eq hn1.symm) hn2) hn3
        · intro j hj
          rw [hfr3 j hj, hfr2 j hj, hfr1 j hj]

lemma mapState_copy_snap (F : ℕ) : ∀ is : List Nat, ∀ st : St, wellFormed st →
    (∀ j ∈ is, j < st.next) →
    (mapState (copyNode F) st is).2.map
        (snap (mapState (copyNode F) st is).1.heap F) =
      is.map (snap st.heap F) := by
  intro is
  induction is with
  | nil => intro st _ _; rfl
  | cons j js ihl =>
      intro st hw hjs
      obtain ⟨hpn, hpr, hpr2, hpfr, hpseg⟩ := copyNode_opSpec F st j
      obtain ⟨hqn, hqmem, hqfr, hqseg⟩ :=
        mapState_spec (copyNode F) (copyNode_opSpec F) js (copyNode F st j).1
      have hwp : wellFormed (copyNode F st j).1 :=
        opSpec_wf _ (copyNode_opSpec F) st j hw
      have hq : mapState (copyNode F) st (j :: js) =
          ((mapState (copyNode F) (copyNode F st j).1 js).1,
           (copyNode F st j).2 ::
             (mapState (copyNode F) (copyNode F st j).1 js).2) := rfl
      rw [hq, List.map_cons, List.map_cons]
      congr 1
      · have hag : snap (mapState (copyNode F) (copyNode F st j).1 js).1.heap
            F (copyNode F st j).2 =
            snap (copyNode F st j).1.heap F (copyNode F st j).2 := by
          apply snap_agree F _ _ (copyNode F st j).1.next _ hpr2
          · intro m hm
            rw [hqfr m hm]
            exact hwp m hm
          · intro m hm
            exact hqfr m hm
        rw [hag]
        exact copyNode_snap F st j hw (hjs j (List.mem_cons_self j js))
      · have htail := ihl (copyNode F st j).1 hwp
          (fun m hm => lt_of_lt_of_le (hjs m (List.mem_cons_of_mem j hm)) hpn)
        rw [htail]
        apply List.map_congr_left
        intro m hm
        apply snap_agree F _ _ st.next _ (hjs m (List.mem_cons_of_mem j hm))
        · intro u hu
          rw [hpfr u hu]
          exact hw u hu
        · intro u hu
          exact hpfr u hu

/-- One frame of SearchTraces.search as run by the streaming controller:
deep-copy the parent octree template, then run the recursive
calculate-semblance / refine engine on the copy. -/
def frameOnCopy (limit : ℚ) (semOracle : ℕ → List ℚ)
    (refOracle : ℕ → NodeData → Bool) (travFuel copyFuel depth : ℕ)
    (st0 : St) (parentRoots : List Nat) : St :=
  searchFrame limit semOracle refOracle travFuel depth
    (mapState (copyNode copyFuel) st0 parentRoots).1
    (mapState (copyNode copyFuel) st0 parentRoots).2

/-- C2.  SearchTraces.search runs on a fresh deep copy of the parent
octree template, so after any frame (every refinement recursion depth,
every numeric outcome, every fuel) the parent octree's node structure and
semblance values are unchanged at every snapshot depth; consequently a deep
copy taken for a later window is identical to one taken before the frame,
so two successive windows never observe each other's refinements. -/
theorem C2_search_on_copy (limit : ℚ) (semOracle : ℕ → List ℚ)
    (refOracle : ℕ → NodeData → Bool) (travFuel copyFuel depth : ℕ)
    (st0 : St) (parentRoots : List Nat) (hw : wellFormed st0)
    (hroots : ∀ r ∈ parentRoots, r < st0.next) :
    (∀ f : ℕ, ∀ r ∈ parentRoots,
       snap (frameOnCopy limit semOracle refOracle travFuel copyFuel depth
           st0 parentRoots).heap f r =
         snap st0.heap f r) ∧
    (∀ F : ℕ,
       (mapState (copyNode F) (frameOnCopy limit semOracle refOracle travFuel
           copyFuel depth st0 parentRoots) parentRoots).2.map
         (snap (mapState (copyNode F) (frameOnCopy limit semOracle refOracle
             travFuel copyFuel depth st0 parentRoots) parentRoots).1.heap F) =
       (mapState (copyNode F) st0 parentRoots).2.map
         (snap (mapState (copyNode F) st0 parentRoots).1.heap F)) := by
  obtain ⟨hcn, hcmem, hcfr, hcseg⟩ :=
    mapState_spec (copyNode copyFuel) (copyNode_opSpec copyFuel) parentRoots st0
  have hwc : wellFormed (mapState (copyNode copyFuel) st0 parentRoots).1 :=
    mapState_wf (copyNode copyFuel) (copyNode_opSpec copyFuel) parentRoots st0 hw
  have hinv : searchInv (mapState (copyNode copyFuel) st0 parentRoots).1 st0.next
      (mapState (copyNode copyFuel) st0 parentRoots).2 := by
    refine ⟨hcn, hcmem, hwc, ?_⟩
    intro j hj1 hj2
    obtain ⟨hc, hk⟩ := hcseg j hj1 hj2
    exact ⟨fun m hm => (hc m hm).1, fun m hm => (hk m hm).1⟩
  obtain ⟨hinv2, hn2, hfr2⟩ := searchFrame_frame limit semOracle refOracle
    travFuel st0.next depth (mapState (copyNode copyFuel) st0 parentRoots).1
    (mapState (copyNode copyFuel) st0 parentRoots).2 hinv
  have hagree : ∀ j, j < st0.next →
      (frameOnCopy limit semOracle refOracle travFuel copyFuel depth
        st0 parentRoots).heap j = st0.heap j := by
    intro j hj
    rw [frameOnCopy, hfr2 j hj, hcfr j hj]
  have hsnap : ∀ f : ℕ, ∀ r ∈ parentRoots,
      snap (frameOnCopy limit semOracle refOracle travFuel copyFuel depth
          st0 parentRoots).heap f r = snap st0.heap f r := by
    intro f r hr
    apply snap_agree f _ _ st0.next _ (hroots r hr)
    · intro u hu
      rw [hagree u hu]
      exact hw u hu
    · intro u hu
      exact hagree u hu
  refine ⟨hsnap, ?_⟩
  intro F
  have hwf2 : wellFormed (frameOnCopy limit semOracle refOracle travFuel
      copyFuel depth st0 parentRoots) := hinv2.2.2.1
  have hb2 : ∀ r ∈ parentRoots, r < (frameOnCopy limit semOracle refOracle
      travFuel copyFuel depth st0 parentRoots).next := by
    intro r hr
    have h1 : r < st0.next := hroots r hr
    have h2 : st0.next ≤ (mapState (copyNode copyFuel) st0 parentRoots).1.next := hcn
    have h3 := hn2
    rw [frameOnCopy]
    omega
  rw [mapState_copy_snap F parentRoots _ hwf2 hb2,
      mapState_copy_snap F parentRoots st0 hw hroots]
  apply List.map_congr_left
  intro r hr
  exact hsnap F r hr

/-- Witness for C2 at the concrete one-node template with trivial oracles. -/
theorem C2_search_on_copy_witness :
    ((∀ i, i < demoSt.next →
        (∀ j ∈ (demoSt.heap i).children, j < demoSt.next) ∧
        (∀ j ∈ (demoSt.heap i).cached, j < demoSt.next)) ∧
      (∀ r ∈ [(0 : Nat)], r < demoSt.next)) ∧
    (∀ f : ℕ, ∀ r ∈ [(0 : Nat)],
       snap (frameOnCopy 1 (fun _ => [1]) (fun _ _ => true) 2 2 2
           demoSt [0]).heap f r =
         snap demoSt.heap f r) := by
  have hw : wellFormed demoSt := by
    intro i _
    exact ⟨fun m hm => absurd hm (List.not_mem_nil m),
           fun m hm => absurd hm (List.not_mem_nil m)⟩
  have hr : ∀ r ∈ [(0 : Nat)], r < demoSt.next := by
    intro r hr
    rcases List.mem_cons.1 hr with rfl | h
    · exact Nat.zero_lt_one
    · exact absurd h (List.not_mem_nil r)
  exact ⟨⟨hw, hr⟩,
    (C2_search_on_copy 1 (fun _ => [1]) (fun _ _ => true) 2 2 2 demoSt [0]
      hw hr).1⟩

end Lassie
